/-
Verification of the training-harness specification of `fit.py` (tfomics).

The Python source is shallowly embedded: the per-split metric dictionaries
(`MonitorMetrics.value`) become association lists from metric names to value
histories, floats become rationals, mutation becomes explicit state passing,
and code that can raise (`KeyError`, `IndexError`, an unbound local) returns
`Option`.  External collaborators (the TensorFlow model, optimizer and data
pipeline) are parameters, exactly the boundary the code delegates across.
-/
import Mathlib

namespace Tfomics

/-! ## Definitions: the shallow embedding of fit.py -/

/-- A metric store: the shallow embedding of the Python dict
`MonitorMetrics.value`, mapping metric names to histories of scalars.
An association list is used; keys inserted by the code are pairwise distinct,
and lookup returns the first matching entry, like a dict. -/
abbrev Store : Type := List (String × List ℚ)

/-- Dictionary lookup `self.value[key]`; `none` models a `KeyError`. -/
def storeLookup : Store → String → Option (List ℚ)
  | [], _ => none
  | (k, h) :: rest, key => if k = key then some h else storeLookup rest key

/-- Embedding of `self.value[key].append(v)`: appends `v` to the history at
`key`, or `none` (a `KeyError`) when `key` is absent. -/
def storeAppendVal : Store → String → ℚ → Option Store
  | [], _, _ => none
  | (k, h) :: rest, key, v =>
    if k = key then some ((k, h ++ [v]) :: rest)
    else (storeAppendVal rest key v).map (fun s => (k, h) :: s)

/-- Embedding of `np.nanmean` on a list of rationals.  Rationals have no NaN,
so the NaN-filtering step is the identity here; on the empty list we return
`0` (the code never takes the mean of an empty array on a claim-relevant
path). -/
def nanmean (l : List ℚ) : ℚ := l.sum / l.length

/-- Embedding of `np.nanstd` on a list of rationals, modelled up to the final
square root: we record the variance, since rationals are not closed under
square roots.  No claim depends on the numeric value of a std entry, only on
its presence, position and count, which agree with the source. -/
def nanstd (l : List ℚ) : ℚ := (l.map (fun x => (x - nanmean l) ^ 2)).sum / l.length

/-- One conditional block of `MonitorMetrics.initialize_metrics`
(source name `initialize_metrics`): if metric `m` was declared, create the
empty histories `m` and `m_std`. -/
def stdPair (m : String) (metric_names : List String) : Store :=
  if m ∈ metric_names then [(m, []), (m ++ "_std", [])] else []

/-- Embedding of `MonitorMetrics.initialize_metrics` (the constructor path of
`MonitorMetrics`): always creates `loss`, and for each recognized declared
metric name also creates its history and its `_std` history, in source
order. -/
def init_metrics (metric_names : List String) : Store :=
  ("loss", ([] : List ℚ)) ::
    (stdPair "acc" metric_names ++
      (stdPair "auroc" metric_names ++
        (stdPair "aupr" metric_names ++
          (stdPair "corr" metric_names ++
            (stdPair "mcc" metric_names ++ stdPair "mse" metric_names)))))

/-- The six recognized non-loss metric names of `initialize_metrics`. -/
def recognized : List String := ["acc", "auroc", "aupr", "corr", "mcc", "mse"]

/-- The metrics actually tracked by a freshly constructed `MonitorMetrics`:
`loss` plus every recognized declared name. -/
def tracked (metric_names : List String) : List String :=
  "loss" :: recognized.filter (fun m => decide (m ∈ metric_names))

/-- Embedding of `MonitorMetrics.update(**kwargs)`: for each named metric, in
call order, append the NaN-tolerant mean of the supplied values, and for a
non-`loss` name additionally append the std to the `_std` history.  `none`
models the `KeyError` raised when a history is missing. -/
def monitorUpdate : Store → List (String × List ℚ) → Option Store
  | s, [] => some s
  | s, (n, vs) :: rest =>
    match storeAppendVal s n (nanmean vs) with
    | none => none
    | some s1 =>
      if n = "loss" then monitorUpdate s1 rest
      else
        match storeAppendVal s1 (n ++ "_std") (nanstd vs) with
        | none => none
        | some s2 => monitorUpdate s2 rest

/-- A sequence of `MonitorMetrics.update` calls, each with its own kwargs. -/
def monitorUpdates : Store → List (List (String × List ℚ)) → Option Store
  | s, [] => some s
  | s, c :: cs =>
    match monitorUpdate s c with
    | none => none
    | some s1 => monitorUpdates s1 cs

/-- The scalars that one `update(**kwargs)` call appends to the history at
key `k`: the mean for each entry named `k`, and the std for each non-loss
entry whose derived `_std` name is `k`, in call order. -/
def appendedVals (c : List (String × List ℚ)) (k : String) : List ℚ :=
  c.flatMap (fun e =>
    (if e.1 = k then [nanmean e.2] else []) ++
      (if e.1 ≠ "loss" ∧ e.1 ++ "_std" = k then [nanstd e.2] else []))

/-- The scalars appended to the history at `k` across a sequence of
`update` calls. -/
def appendedValsSeq (cs : List (List (String × List ℚ))) (k : String) : List ℚ :=
  cs.flatMap (fun c => appendedVals c k)

/-- Embedding of `TrainMetrics`: three independent `MonitorMetrics` stores. -/
structure TrainMetrics where
  train : Store
  valid : Store
  test : Store

/-- Embedding of `TrainMetrics.__init__`. -/
def TrainMetrics.make (metric_names : List String) : TrainMetrics :=
  ⟨init_metrics metric_names, init_metrics metric_names, init_metrics metric_names⟩

/-- Embedding of `TrainMetrics.update(name, **kwargs)`: routes to the store
for the given split name; any other split name falls through the
`if`/`elif` chain and the call does nothing. -/
def TrainMetrics.update (tm : TrainMetrics) (name : String)
    (kwargs : List (String × List ℚ)) : Option TrainMetrics :=
  if name = "train" then
    (monitorUpdate tm.train kwargs).map (fun s => { tm with train := s })
  else if name = "valid" then
    (monitorUpdate tm.valid kwargs).map (fun s => { tm with valid := s })
  else if name = "test" then
    (monitorUpdate tm.test kwargs).map (fun s => { tm with test := s })
  else
    some tm

/-- Embedding of the `LRDecay` state: the live learning rate, the static
config, and the mutable best-value/counter pair. -/
structure LRDecay where
  lr : ℚ
  decay_rate : ℚ
  patience : ℕ
  metric : String
  index : ℕ
  best_val : ℚ
  sign : ℤ

/-- Embedding of `LRDecay.__init__` together with the `initialize` helper it
calls (source name `initialize`): for metric `loss` the best value starts at
the sentinel `1e10` with sign `+1` (minimize); for any other metric at
`-1e10` with sign `-1` (maximize). -/
def LRDecay.make (lr decay_rate : ℚ) (patience : ℕ) (metric : String) : LRDecay :=
  if metric = "loss" then
    ⟨lr, decay_rate, patience, metric, 0, 10000000000, 1⟩
  else
    ⟨lr, decay_rate, patience, metric, 0, -10000000000, -1⟩

/-- Embedding of `LRDecay.status(val)`: returns the fire flag together with
the mutated state. -/
def LRDecay.status (d : LRDecay) (val : ℚ) : Bool × LRDecay :=
  if (d.sign : ℚ) * val < (d.sign : ℚ) * d.best_val then
    (false, { d with best_val := val, index := 0 })
  else
    if d.index + 1 = d.patience then
      (true, { d with index := 0 })
    else
      (false, { d with index := d.index + 1 })

/-- Embedding of `LRDecay.check(val)`: on a fire, `decay_learning_rate`
multiplies the learning rate by the decay factor (the optimizer assignment
and console notice are external effects). -/
def LRDecay.check (d : LRDecay) (val : ℚ) : LRDecay :=
  let r := d.status val
  if r.1 then { r.2 with lr := r.2.lr * r.2.decay_rate } else r.2

/-- Feeds a list of values to `check`, one at a time. -/
def LRDecay.runChecks (d : LRDecay) (vals : List ℚ) : LRDecay :=
  vals.foldl LRDecay.check d

/-- How many times a sequence of `check` calls fires (each fire is exactly
one multiplication of the learning rate by `decay_rate`). -/
def LRDecay.fires (d : LRDecay) : List ℚ → ℕ
  | [] => 0
  | v :: rest => (if (d.status v).1 then 1 else 0) + (d.check v).fires rest

/-- Embedding of `np.argmin` on a list: index of the smallest value, earliest
occurrence on ties.  The accumulator holds the best index and value seen so
far and the index of the next element. -/
def argminAux (bi : ℕ) (bv : ℚ) (i : ℕ) : List ℚ → ℕ
  | [] => bi
  | v :: rest => if v < bv then argminAux i v (i + 1) rest else argminAux bi bv (i + 1) rest

def argminList : List ℚ → ℕ
  | [] => 0
  | v :: rest => argminAux 0 v 1 rest

/-- Embedding of `np.argmax` on a list: index of the largest value, earliest
occurrence on ties. -/
def argmaxAux (bi : ℕ) (bv : ℚ) (i : ℕ) : List ℚ → ℕ
  | [] => bi
  | v :: rest => if bv < v then argmaxAux i v (i + 1) rest else argmaxAux bi bv (i + 1) rest

def argmaxList : List ℚ → ℕ
  | [] => 0
  | v :: rest => argmaxAux 0 v 1 rest

/-- Embedding of `Trainer.early_stopping(metric, patience)`: reads the
validation history of `metric` (`KeyError` when untracked, and `np.argmin` /
`np.argmax` raise on an empty history, both modelled as `none`), finds the
best index, and signals stop when `patience - (len - index - 1) <= 0`. -/
def early_stopping (tm : TrainMetrics) (metric : String) (patience : ℤ) : Option Bool :=
  match storeLookup tm.valid metric with
  | none => none
  | some vals =>
    if vals.isEmpty then none
    else
      let index := if metric = "loss" then argminList vals else argmaxList vals
      some (decide (patience - ((vals.length : ℤ) - (index : ℤ) - 1) ≤ 0))

/-- Embedding of `Trainer.train_epoch`.  The shuffled-and-batched dataset and
the external `train_step` computation are parameters (randomness and the
model live outside the code under verification).  The Python local
`batch_dataset` is assigned only inside `if shuffle:`, so reading it with
shuffling disabled raises `UnboundLocalError`, modelled as `none`; an empty
dataset leaves the loop variable `i` unbound in `running_loss/(i+1)`, also
`none`.  Returns the mean batch loss, the per-batch predictions in batch
order, and the per-batch targets in batch order. -/
def train_epoch {α β γ : Type} (shuffledBatches : List (α × β))
    (step : α × β → ℚ × γ) (shuffle : Bool) : Option (ℚ × List γ × List β) :=
  let batch_dataset : Option (List (α × β)) :=
    if shuffle then some shuffledBatches else none
  match batch_dataset with
  | none => none
  | some batches =>
    match batches with
    | [] => none
    | _ =>
      let folded := batches.foldl
        (fun acc b =>
          let r := step b
          (acc.1 + r.1, acc.2.1 ++ [r.2], acc.2.2 ++ [b.2]))
        ((0 : ℚ), ([] : List γ), ([] : List β))
      some (folded.1 / (batches.length : ℚ), folded.2.1, folded.2.2)

/-- Embedding of the `metric_dic` construction in `Trainer.evaluate`:
entry `i` of the model's metric list gets `results[i+1]`; a too-short result
list raises `IndexError` (`none`). -/
def metric_dic : List String → List ℚ → ℕ → Option (List (String × List ℚ))
  | [], _, _ => some []
  | n :: rest, results, i =>
    match results.get? (i + 1) with
    | none => none
    | some r => (metric_dic rest results (i + 1)).map (fun d => (n, [r]) :: d)

/-- Embedding of `Trainer.evaluate(name, x, y)`: the external
`model.evaluate` output is the `results` parameter (loss first, then one
scalar per model metric).  Appends the loss and then every metric value to
the split's store; printing is an external effect. -/
def Trainer.evaluate (tm : TrainMetrics) (name : String) (metricNames : List String)
    (results : List ℚ) : Option TrainMetrics := do
  let dic ← metric_dic metricNames results 0
  let l ← results.get? 0
  let tm1 ← tm.update name [("loss", [l])]
  tm1.update name dic

/-- Observable steps of one `fit_lr_decay` epoch, in execution order. -/
inductive FitEvent where
  | trainEpochEv (epoch : ℕ)
  | evaluateEv (epoch : ℕ)
  | checkLrDecayEv (epoch : ℕ) (val : ℚ)
  | earlyStoppingEv (epoch : ℕ) (result : Bool)
deriving DecidableEq

/-- The external world of `fit_lr_decay`: the model's declared metric names,
its `evaluate` output per epoch, and the shuffled training batches and
`train_step` outcome per epoch. -/
structure FitOracle where
  metricNames : List String
  evalResults : ℕ → List ℚ
  trainBatches : ℕ → List (List ℚ × List ℚ)
  stepFn : ℕ → List ℚ × List ℚ → ℚ × List ℚ

/-- The Trainer-owned mutable state of the fit loop. -/
structure TrainerState where
  metrics : TrainMetrics
  lr_decay : LRDecay

/-- One iteration of the `fit_lr_decay` epoch loop: `train_epoch`, then
`evaluate` on the validation split, then `check_lr_decay` fed with
`metrics.valid.value[lr_metric][-1]`, then `early_stopping`; returns the
emitted events, the new state and the early-stopping flag. -/
def fit_step (o : FitOracle) (lr_metric es_metric : String) (es_patience : ℤ)
    (shuffle : Bool) (st : TrainerState) (epoch : ℕ) :
    Option (List FitEvent × TrainerState × Bool) := do
  let _ ← train_epoch (o.trainBatches epoch) (o.stepFn epoch) shuffle
  let tm ← Trainer.evaluate st.metrics "valid" o.metricNames (o.evalResults epoch)
  let vhist ← storeLookup tm.valid lr_metric
  let v ← vhist.getLast?
  let d := st.lr_decay.check v
  let es ← early_stopping tm es_metric es_patience
  some ([FitEvent.trainEpochEv epoch, FitEvent.evaluateEv epoch,
         FitEvent.checkLrDecayEv epoch v, FitEvent.earlyStoppingEv epoch es],
        ⟨tm, d⟩, es)

/-- The `for epoch in range(num_epochs)` loop with its early-stopping
`break`, as a fuel recursion. -/
def fit_loop (o : FitOracle) (lr_metric es_metric : String) (es_patience : ℤ)
    (shuffle : Bool) : TrainerState → ℕ → ℕ → Option (List FitEvent × TrainerState)
  | st, _, 0 => some ([], st)
  | st, epoch, fuel + 1 => do
    let r ← fit_step o lr_metric es_metric es_patience shuffle st epoch
    if r.2.2 then some (r.1, r.2.1)
    else do
      let t ← fit_loop o lr_metric es_metric es_patience shuffle r.2.1 (epoch + 1) fuel
      some (r.1 ++ t.1, t.2)

/-- Embedding of `fit_lr_decay`: builds the Trainer (metric names are `loss`
plus the model's), installs `LRDecay`, and runs the epoch loop. -/
def fit_lr_decay (o : FitOracle) (num_epochs : ℕ) (shuffle : Bool)
    (es_patience : ℤ) (es_metric : String)
    (lr lr_decay_rate : ℚ) (lr_patience : ℕ) (lr_metric : String) :
    Option (List FitEvent × TrainerState) :=
  fit_loop o lr_metric es_metric es_patience shuffle
    ⟨TrainMetrics.make ("loss" :: o.metricNames),
      LRDecay.make lr lr_decay_rate lr_patience lr_metric⟩ 0 num_epochs

/-- The validation value of the chosen learning-rate metric produced by epoch
`epoch`'s evaluation: `results[0]` for `loss`, `results[i+1]` for the model's
`i`-th metric. -/
def chosenVal (o : FitOracle) (lr_metric : String) (epoch : ℕ) : ℚ :=
  if lr_metric = "loss" then (o.evalResults epoch).getD 0 0
  else (o.evalResults epoch).getD (o.metricNames.indexOf lr_metric + 1) 0

def digitChar : ℕ → Char
  | 0 => '0'
  | 1 => '1'
  | 2 => '2'
  | 3 => '3'
  | 4 => '4'
  | 5 => '5'
  | 6 => '6'
  | 7 => '7'
  | 8 => '8'
  | _ => '9'

/-- Decimal digits of a natural number, most significant first. -/
def natDigits (n : ℕ) : List Char :=
  if _h : n < 10 then [digitChar n]
  else natDigits (n / 10) ++ [digitChar (n % 10)]
decreasing_by exact Nat.div_lt_self (by omega) (by omega)

/-- Python's built-in `round` on a rational (round half to even), as used by
`int(round(...))` in `progress_bar`. -/
def pyRound (q : ℚ) : ℤ :=
  let f := ⌊q⌋
  let r := q - (f : ℚ)
  if r < 1/2 then f
  else if 1/2 < r then f + 1
  else if f % 2 = 0 then f else f + 1

/-- Fixed-point decimal rendering of a rational with `prec` digits after the
point, the shape produced by the `%.1f` / `%.5f` conversions of
`progress_bar` (the tie-breaking of the final digit is immaterial to every
property proved about the rendered string). -/
def fmtFixed (prec : ℕ) (q : ℚ) : String :=
  let n : ℤ := pyRound (q * (10 : ℚ) ^ prec)
  let sign := if n < 0 then "-" else ""
  let m := n.natAbs
  let ip := m / 10 ^ prec
  let fp := m % 10 ^ prec
  if prec = 0 then sign ++ String.mk (natDigits ip)
  else
    sign ++ String.mk (natDigits ip) ++ "." ++
      String.mk (List.replicate (prec - (natDigits fp).length) '0' ++ natDigits fp)

/-- The optional keyword metrics `progress_bar` accepts, in the order the
source tests for them. -/
structure ProgressKw where
  loss : Option ℚ
  acc : Option ℚ
  auroc : Option ℚ
  aupr : Option ℚ
  pearsonr : Option ℚ
  mcc : Option ℚ
  mse : Option ℚ

/-- One `if name in kwargs:` block of `progress_bar`: the rendered addition
to the output line. -/
def optPart (label : String) (v : Option ℚ) : String :=
  match v with
  | some x => label ++ fmtFixed 5 x
  | none => ""

/-- The metric suffix of the `progress_bar` line. -/
def kwSuffix (kw : ProgressKw) : String :=
  optPart " -- loss=" kw.loss ++ optPart " -- acc=" kw.acc ++
    optPart " -- auroc=" kw.auroc ++ optPart " -- aupr=" kw.aupr ++
      optPart " -- pearsonr=" kw.pearsonr ++ optPart " -- mcc=" kw.mcc ++
        optPart " -- mse=" kw.mse

/-- Embedding of `progress_bar`: elapsed wall-clock time is the `elapsed`
parameter (the code reads it from `time.time() - start_time`).  The `%`
interpolation is inlined: placeholders and values are appended in the same
order the source builds `output_text` and `output_vals`.  With
`num_batches = 0` the `iter/num_batches` division raises, modelled as
`none`. -/
def progress_bar (iter num_batches : ℕ) (elapsed : ℚ) (bar_length : ℕ)
    (kw : ProgressKw) : Option String :=
  if num_batches = 0 then none
  else
    let percent : ℚ := (iter : ℚ) / (num_batches : ℚ)
    let rounded : ℤ := pyRound (percent * (bar_length : ℚ))
    let bar := String.mk (List.replicate rounded.toNat '=') ++
      String.mk (List.replicate ((bar_length : ℤ) - rounded).toNat ' ')
    if iter = num_batches then
      some ("\r[" ++ bar ++ "] " ++ fmtFixed 1 (percent * 100) ++ "%" ++
        " -- elapsed time=" ++ fmtFixed 1 elapsed ++ "s" ++ kwSuffix kw ++ "\n")
    else
      some ("\r[" ++ bar ++ "] " ++ fmtFixed 1 (percent * 100) ++ "%" ++
        "  -- remaining time=" ++
        fmtFixed 1 (elapsed * ((num_batches : ℚ) - ((iter : ℚ) + 1)) / ((iter : ℚ) + 1)) ++
        "s" ++ kwSuffix kw)

/-- The pattern `pat` occurs contiguously inside `s`. -/
def strContains (s pat : String) : Prop := ∃ l r : String, s = l ++ (pat ++ r)

/-! ## Theorems -/

theorem storeLookup_append (s₁ s₂ : Store) (k : String) :
    storeLookup (s₁ ++ s₂) k =
      match storeLookup s₁ k with
      | some h => some h
      | none => storeLookup s₂ k := by
  induction s₁ with
  | nil => rfl
  | cons e rest ih =>
    obtain ⟨k0, h0⟩ := e
    by_cases hk : k0 = k
    · simp [storeLookup, hk, List.cons_append]
    · simpa [storeLookup, hk, List.cons_append] using ih

theorem storeAppendVal_isSome (s : Store) (k : String) (v : ℚ) :
    (storeAppendVal s k v).isSome = (storeLookup s k).isSome := by
  induction s with
  | nil => rfl
  | cons e rest ih =>
    obtain ⟨k0, h0⟩ := e
    by_cases hk : k0 = k
    · simp [storeAppendVal, storeLookup, hk]
    · simpa [storeAppendVal, storeLookup, hk] using ih

theorem storeAppendVal_eq_none (s : Store) (k : String) (v : ℚ) :
    storeAppendVal s k v = none ↔ storeLookup s k = none := by
  have h := storeAppendVal_isSome s k v
  constructor
  · intro hn
    rw [hn] at h
    exact Option.not_isSome_iff_eq_none.mp (by simp [← h])
  · intro hn
    rw [hn] at h
    exact Option.not_isSome_iff_eq_none.mp (by simp [h])

theorem storeLookup_storeAppendVal_self (s s' : Store) (k : String) (v : ℚ)
    (h : storeAppendVal s k v = some s') :
    ∃ hist, storeLookup s k = some hist ∧ storeLookup s' k = some (hist ++ [v]) := by
  induction s generalizing s' with
  | nil => simp [storeAppendVal] at h
  | cons e rest ih =>
    obtain ⟨k0, h0⟩ := e
    by_cases hk : k0 = k
    · subst hk
      simp [storeAppendVal] at h
      subst h
      exact ⟨h0, by simp [storeLookup], by simp [storeLookup]⟩
    · simp [storeAppendVal, hk] at h
      obtain ⟨s1, hs1, rfl⟩ := h
      obtain ⟨hist, hh1, hh2⟩ := ih s1 hs1
      exact ⟨hist, by simpa [storeLookup, hk] using hh1, by simpa [storeLookup, hk] using hh2⟩

theorem storeLookup_storeAppendVal_ne (s s' : Store) (k k' : String) (v : ℚ)
    (h : storeAppendVal s k v = some s') (hne : k' ≠ k) :
    storeLookup s' k' = storeLookup s k' := by
  induction s generalizing s' with
  | nil => simp [storeAppendVal] at h
  | cons e rest ih =>
    obtain ⟨k0, h0⟩ := e
    by_cases hk : k0 = k
    · subst hk
      simp [storeAppendVal] at h
      subst h
      simp [storeLookup, Ne.symm hne]
    · simp [storeAppendVal, hk] at h
      obtain ⟨s1, hs1, rfl⟩ := h
      by_cases hk' : k0 = k'
      · simp [storeLookup, hk']
      · simpa [storeLookup, hk'] using ih s1 hs1

theorem append_std_last (n : String) :
    (n ++ "_std").data.getLast? = some 'd' := by
  rw [String.data_append]
  rw [List.getLast?_append_of_ne_nil _ (by decide)]
  rfl

theorem append_std_cancel (n m : String) (h : n ++ "_std" = m ++ "_std") : n = m := by
  apply String.ext
  have hd : n.data ++ "_std".data = m.data ++ "_std".data := by
    have := congrArg String.data h
    rwa [String.data_append, String.data_append] at this
  exact List.append_cancel_right hd

theorem append_std_ne_self (n : String) : n ++ "_std" ≠ n := by
  intro hc
  have := congrArg (fun t => t.data.length) hc
  simp [String.data_append] at this

theorem recognized_ne_append_std (m n : String) (hm : m ∈ "loss" :: recognized) :
    n ++ "_std" ≠ m := by
  intro h
  have hlast := append_std_last n
  rw [h] at hlast
  simp only [recognized, List.mem_cons, List.not_mem_nil, or_false] at hm
  rcases hm with rfl | rfl | rfl | rfl | rfl | rfl | rfl <;> simp at hlast

theorem monitorUpdate_lookup (c : List (String × List ℚ)) (s s' : Store)
    (h : monitorUpdate s c = some s') (k : String) (hist : List ℚ)
    (hk : storeLookup s k = some hist) :
    storeLookup s' k = some (hist ++ appendedVals c k) := by
  induction c generalizing s hist with
  | nil =>
    simp [monitorUpdate] at h
    subst h
    simpa [appendedVals] using hk
  | cons e rest ih =>
    obtain ⟨n, vs⟩ := e
    simp only [monitorUpdate] at h
    cases h1 : storeAppendVal s n (nanmean vs) with
    | none => rw [h1] at h; exact absurd h (by simp)
    | some s1 =>
      rw [h1] at h
      dsimp only at h
      by_cases hn : n = "loss"
      · rw [if_pos hn] at h
        subst hn
        by_cases hkn : k = "loss"
        · subst hkn
          obtain ⟨hist0, hh0, hh1⟩ := storeLookup_storeAppendVal_self s s1 "loss" _ h1
          rw [hk] at hh0
          cases hh0
          have := ih s1 h (hist ++ [nanmean vs]) hh1
          rw [this]
          simp [appendedVals]
        · have hlk : storeLookup s1 k = some hist := by
            rw [storeLookup_storeAppendVal_ne s s1 "loss" k _ h1 hkn]
            exact hk
          have := ih s1 h hist hlk
          rw [this]
          simp [appendedVals, fun hc : k = "loss" => hkn hc, Ne.symm (fun hc : k = "loss" => hkn hc)]
      · rw [if_neg hn] at h
        cases h2 : storeAppendVal s1 (n ++ "_std") (nanstd vs) with
        | none => rw [h2] at h; exact absurd h (by simp)
        | some s2 =>
          rw [h2] at h
          dsimp only at h
          -- track the history at k through the two appends
          by_cases hkn : n = k
          · subst hkn
            obtain ⟨hist0, hh0, hh1⟩ := storeLookup_storeAppendVal_self s s1 n _ h1
            rw [hk] at hh0
            cases hh0
            have hne2 : n ≠ n ++ "_std" := by
              intro hc
              have := congrArg (fun t => t.data.length) hc
              simp [String.data_append] at this
            have hlk2 : storeLookup s2 n = some (hist ++ [nanmean vs]) := by
              rw [storeLookup_storeAppendVal_ne s1 s2 (n ++ "_std") n _ h2 hne2]
              exact hh1
            have := ih s2 h (hist ++ [nanmean vs]) hlk2
            rw [this]
            have hstd : ¬ (n ≠ "loss" ∧ n ++ "_std" = n) := by
              rintro ⟨-, hc⟩
              exact hne2 hc.symm
            simp [appendedVals, hstd]
          · by_cases hks : n ++ "_std" = k
            · have hlk1 : storeLookup s1 k = some hist := by
                rw [storeLookup_storeAppendVal_ne s s1 n k _ h1 (fun hc => hkn hc.symm)]
                exact hk
              obtain ⟨hist0, hh0, hh1⟩ := storeLookup_storeAppendVal_self s1 s2 (n ++ "_std") _ h2
              rw [hks] at hh0 hh1
              rw [hlk1] at hh0
              cases hh0
              have := ih s2 h (hist ++ [nanstd vs]) hh1
              rw [this]
              simp [appendedVals, hn, hks, fun hc : n = k => hkn hc, Ne.symm (fun hc : n = k => hkn hc)]
            · have hlk1 : storeLookup s1 k = some hist := by
                rw [storeLookup_storeAppendVal_ne s s1 n k _ h1 (fun hc => hkn hc.symm)]
                exact hk
              have hlk2 : storeLookup s2 k = some hist := by
                rw [storeLookup_storeAppendVal_ne s1 s2 (n ++ "_std") k _ h2 (fun hc => hks hc.symm)]
                exact hlk1
              have := ih s2 h hist hlk2
              rw [this]
              simp [appendedVals, hn, hks, fun hc : n = k => hkn hc, Ne.symm (fun hc : n = k => hkn hc)]

theorem monitorUpdate_none_pres (c : List (String × List ℚ)) (s s' : Store)
    (h : monitorUpdate s c = some s') (k : String) :
    storeLookup s' k = none ↔ storeLookup s k = none := by
  induction c generalizing s with
  | nil =>
    simp [monitorUpdate] at h
    subst h
    rfl
  | cons e rest ih =>
    obtain ⟨n, vs⟩ := e
    simp only [monitorUpdate] at h
    cases h1 : storeAppendVal s n (nanmean vs) with
    | none => rw [h1] at h; exact absurd h (by simp)
    | some s1 =>
      rw [h1] at h
      dsimp only at h
      have hs1 : storeLookup s1 k = none ↔ storeLookup s k = none := by
        by_cases hkn : k = n
        · subst hkn
          obtain ⟨hist, hh0, hh1⟩ := storeLookup_storeAppendVal_self s s1 k _ h1
          simp [hh0, hh1]
        · rw [storeLookup_storeAppendVal_ne s s1 n k _ h1 hkn]
      by_cases hn : n = "loss"
      · rw [if_pos hn] at h
        exact (ih s1 h).trans hs1
      · rw [if_neg hn] at h
        cases h2 : storeAppendVal s1 (n ++ "_std") (nanstd vs) with
        | none => rw [h2] at h; exact absurd h (by simp)
        | some s2 =>
          rw [h2] at h
          dsimp only at h
          have hs2 : storeLookup s2 k = none ↔ storeLookup s1 k = none := by
            by_cases hkn : k = n ++ "_std"
            · subst hkn
              obtain ⟨hist, hh0, hh1⟩ := storeLookup_storeAppendVal_self s1 s2 (n ++ "_std") _ h2
              simp [hh0, hh1]
            · rw [storeLookup_storeAppendVal_ne s1 s2 (n ++ "_std") k _ h2 hkn]
          exact ((ih s2 h).trans hs2).trans hs1

/-- An `update` call succeeds precisely when every named metric has a history
and, for non-`loss` names, so does its `_std` companion. -/
theorem monitorUpdate_isSome (c : List (String × List ℚ)) (s : Store)
    (hok : ∀ e ∈ c, (storeLookup s e.1).isSome ∧
      (e.1 ≠ "loss" → (storeLookup s (e.1 ++ "_std")).isSome)) :
    (monitorUpdate s c).isSome := by
  induction c generalizing s with
  | nil => simp [monitorUpdate]
  | cons e rest ih =>
    obtain ⟨n, vs⟩ := e
    obtain ⟨hn1, hn2⟩ := hok (n, vs) (by simp)
    simp only [monitorUpdate]
    cases h1 : storeAppendVal s n (nanmean vs) with
    | none =>
      rw [storeAppendVal_eq_none] at h1
      rw [h1] at hn1
      simp at hn1
    | some s1 =>
      dsimp only
      have hpres1 : ∀ k, (storeLookup s1 k).isSome ↔ (storeLookup s k).isSome := by
        intro k
        by_cases hkn : k = n
        · subst hkn
          obtain ⟨hist, hh0, hh1⟩ := storeLookup_storeAppendVal_self s s1 k _ h1
          simp [hh0, hh1]
        · rw [storeLookup_storeAppendVal_ne s s1 n k _ h1 hkn]
      by_cases hn : n = "loss"
      · rw [if_pos hn]
        apply ih
        intro e he
        obtain ⟨he1, he2⟩ := hok e (by simp [he])
        exact ⟨(hpres1 e.1).mpr he1, fun hne => (hpres1 (e.1 ++ "_std")).mpr (he2 hne)⟩
      · rw [if_neg hn]
        cases h2 : storeAppendVal s1 (n ++ "_std") (nanstd vs) with
        | none =>
          rw [storeAppendVal_eq_none] at h2
          have := (hpres1 (n ++ "_std")).mpr (hn2 hn)
          rw [h2] at this
          simp at this
        | some s2 =>
          dsimp only
          have hpres2 : ∀ k, (storeLookup s2 k).isSome ↔ (storeLookup s1 k).isSome := by
            intro k
            by_cases hkn : k = n ++ "_std"
            · subst hkn
              obtain ⟨hist, hh0, hh1⟩ := storeLookup_storeAppendVal_self s1 s2 (n ++ "_std") _ h2
              simp [hh0, hh1]
            · rw [storeLookup_storeAppendVal_ne s1 s2 (n ++ "_std") k _ h2 hkn]
          apply ih
          intro e he
          obtain ⟨he1, he2⟩ := hok e (by simp [he])
          exact ⟨(hpres2 e.1).mpr ((hpres1 e.1).mpr he1),
            fun hne => (hpres2 (e.1 ++ "_std")).mpr ((hpres1 (e.1 ++ "_std")).mpr (he2 hne))⟩

/-- An `update` call that names a metric with no history raises `KeyError`. -/
theorem monitorUpdate_fails_of_missing (c : List (String × List ℚ)) (s : Store)
    (name : String) (hmem : name ∈ c.map Prod.fst)
    (hmiss : storeLookup s name = none) :
    monitorUpdate s c = none := by
  induction c generalizing s with
  | nil => simp at hmem
  | cons e rest ih =>
    obtain ⟨n, vs⟩ := e
    simp only [monitorUpdate]
    by_cases hn : n = name
    · subst hn
      rw [(storeAppendVal_eq_none s n (nanmean vs)).mpr hmiss]
    · cases h1 : storeAppendVal s n (nanmean vs) with
      | none => rfl
      | some s1 =>
        dsimp only
        simp only [List.map_cons, List.mem_cons] at hmem
        rcases hmem with hceq | hmem
        · exact absurd hceq.symm hn
        · have hmiss1 : storeLookup s1 name = none := by
            by_cases hks : name = n ++ "_std"
            · -- then the std append below this entry would target `name`,
              -- but the first append already failed to find it
              subst hks
              rw [storeLookup_storeAppendVal_ne s s1 n _ _ h1 (append_std_ne_self n)]
              exact hmiss
            · rw [storeLookup_storeAppendVal_ne s s1 n name _ h1 (Ne.symm hn)]
              exact hmiss
          by_cases hnl : n = "loss"
          · rw [if_pos hnl]
            exact ih s1 hmem hmiss1
          · rw [if_neg hnl]
            cases h2 : storeAppendVal s1 (n ++ "_std") (nanstd vs) with
            | none => rfl
            | some s2 =>
              dsimp only
              have hmiss2 : storeLookup s2 name = none := by
                by_cases hks : name = n ++ "_std"
                · subst hks
                  rw [(storeAppendVal_eq_none s1 _ (nanstd vs)).mpr hmiss1] at h2
                  exact absurd h2 (by simp)
                · rw [storeLookup_storeAppendVal_ne s1 s2 (n ++ "_std") name _ h2 hks]
                  exact hmiss1
              exact ih s2 hmem hmiss2

/-- An `update` call that names a non-`loss` metric whose `_std` companion
has no history raises `KeyError` (even when the metric itself has one). -/
theorem monitorUpdate_fails_of_missing_std (c : List (String × List ℚ)) (s : Store)
    (name : String) (hmem : name ∈ c.map Prod.fst) (hnl : name ≠ "loss")
    (hmiss : storeLookup s (name ++ "_std") = none) :
    monitorUpdate s c = none := by
  induction c generalizing s with
  | nil => simp at hmem
  | cons e rest ih =>
    obtain ⟨n, vs⟩ := e
    simp only [monitorUpdate]
    cases h1 : storeAppendVal s n (nanmean vs) with
    | none => rfl
    | some s1 =>
      dsimp only
      have hn_ne : n ≠ name ++ "_std" := by
        intro hc
        rw [(storeAppendVal_eq_none s n (nanmean vs)).mpr (hc ▸ hmiss)] at h1
        exact absurd h1 (by simp)
      have hmiss1 : storeLookup s1 (name ++ "_std") = none := by
        rw [storeLookup_storeAppendVal_ne s s1 n _ _ h1 (Ne.symm hn_ne)]
        exact hmiss
      by_cases hn : n = name
      · subst hn
        rw [if_neg hnl]
        rw [(storeAppendVal_eq_none s1 (n ++ "_std") (nanstd vs)).mpr hmiss1]
      · simp only [List.map_cons, List.mem_cons] at hmem
        rcases hmem with hceq | hmem
        · exact absurd hceq.symm hn
        · by_cases hnloss : n = "loss"
          · rw [if_pos hnloss]
            exact ih s1 hmem hmiss1
          · rw [if_neg hnloss]
            cases h2 : storeAppendVal s1 (n ++ "_std") (nanstd vs) with
            | none => rfl
            | some s2 =>
              dsimp only
              have hmiss2 : storeLookup s2 (name ++ "_std") = none := by
                rw [storeLookup_storeAppendVal_ne s1 s2 (n ++ "_std") _ _ h2
                  (fun hc => hn (append_std_cancel name n hc).symm)]
                exact hmiss1
              exact ih s2 hmem hmiss2

theorem monitorUpdates_lookup (cs : List (List (String × List ℚ))) (s s' : Store)
    (h : monitorUpdates s cs = some s') (k : String) (hist : List ℚ)
    (hk : storeLookup s k = some hist) :
    storeLookup s' k = some (hist ++ appendedValsSeq cs k) := by
  induction cs generalizing s hist with
  | nil =>
    simp [monitorUpdates] at h
    subst h
    simpa [appendedValsSeq] using hk
  | cons c cs ih =>
    simp only [monitorUpdates] at h
    cases h1 : monitorUpdate s c with
    | none => rw [h1] at h; exact absurd h (by simp)
    | some s1 =>
      rw [h1] at h
      dsimp only at h
      have step := monitorUpdate_lookup c s s1 h1 k hist hk
      have := ih s1 h (hist ++ appendedVals c k) step
      rw [this]
      simp [appendedValsSeq]

theorem monitorUpdates_none_pres (cs : List (List (String × List ℚ))) (s s' : Store)
    (h : monitorUpdates s cs = some s') (k : String) :
    storeLookup s' k = none ↔ storeLookup s k = none := by
  induction cs generalizing s with
  | nil =>
    simp [monitorUpdates] at h
    subst h
    rfl
  | cons c cs ih =>
    simp only [monitorUpdates] at h
    cases h1 : monitorUpdate s c with
    | none => rw [h1] at h; exact absurd h (by simp)
    | some s1 =>
      rw [h1] at h
      dsimp only at h
      exact (ih s1 h).trans (monitorUpdate_none_pres c s s1 h1 k)

theorem storeLookup_stdPair_skip (m k : String) (names : List String) (rest : Store)
    (hk : m ∈ names → k ≠ m ∧ k ≠ m ++ "_std") :
    storeLookup (stdPair m names ++ rest) k = storeLookup rest k := by
  unfold stdPair
  by_cases hm : m ∈ names
  · obtain ⟨h1, h2⟩ := hk hm
    simp [hm, storeLookup, Ne.symm h1, Ne.symm h2]
  · simp [hm]

theorem storeLookup_stdPair_self (m : String) (names : List String) (rest : Store)
    (hm : m ∈ names) :
    storeLookup (stdPair m names ++ rest) m = some [] := by
  simp [stdPair, hm, storeLookup]

theorem storeLookup_stdPair_std (m : String) (names : List String) (rest : Store)
    (hm : m ∈ names) :
    storeLookup (stdPair m names ++ rest) (m ++ "_std") = some [] := by
  simp [stdPair, hm, storeLookup, Ne.symm (append_std_ne_self m)]

theorem storeLookup_stdPair_cases (m k : String) (names : List String) (rest : Store) :
    storeLookup (stdPair m names ++ rest) k = storeLookup rest k ∨
      (m ∈ names ∧ (k = m ∨ k = m ++ "_std") ∧
        storeLookup (stdPair m names ++ rest) k = some []) := by
  by_cases hm : m ∈ names
  · by_cases h1 : k = m
    · subst h1
      exact Or.inr ⟨hm, Or.inl rfl, storeLookup_stdPair_self k names rest hm⟩
    · by_cases h2 : k = m ++ "_std"
      · subst h2
        exact Or.inr ⟨hm, Or.inr rfl, storeLookup_stdPair_std m names rest hm⟩
      · exact Or.inl (storeLookup_stdPair_skip m k names rest (fun _ => ⟨h1, h2⟩))
  · exact Or.inl (storeLookup_stdPair_skip m k names rest (fun hc => absurd hc hm))

theorem init_metrics_eq_flat (names : List String) :
    init_metrics names =
      ("loss", ([] : List ℚ)) :: recognized.flatMap (fun m => stdPair m names) := by
  simp [init_metrics, recognized]

theorem storeLookup_flat (l : List String) (names : List String) (k : String) (rest : Store) :
    storeLookup (l.flatMap (fun m => stdPair m names) ++ rest) k =
      if ∃ m ∈ l, m ∈ names ∧ (k = m ∨ k = m ++ "_std") then some []
      else storeLookup rest k := by
  induction l with
  | nil => simp
  | cons m l ih =>
    rw [List.flatMap_cons, List.append_assoc]
    rcases storeLookup_stdPair_cases m k names (l.flatMap (fun m => stdPair m names) ++ rest) with
      hskip | ⟨hm, hk, hsome⟩
    · rw [hskip, ih]
      by_cases hcond : ∃ m' ∈ l, m' ∈ names ∧ (k = m' ∨ k = m' ++ "_std")
      · obtain ⟨m', hm', hrest⟩ := hcond
        rw [if_pos ⟨m', hm', hrest⟩, if_pos ⟨m', List.mem_cons_of_mem m hm', hrest⟩]
      · rw [if_neg hcond]
        by_cases hhead : m ∈ names ∧ (k = m ∨ k = m ++ "_std")
        · -- impossible: the head would have matched, contradicting the skip case
          obtain ⟨hm, hk⟩ := hhead
          rcases hk with rfl | rfl
          · rw [storeLookup_stdPair_self _ names _ hm] at hskip
            rw [ih, if_neg hcond] at hskip
            rw [hskip]
            exact (ite_self _).symm
          · rw [storeLookup_stdPair_std m names _ hm] at hskip
            rw [ih, if_neg hcond] at hskip
            rw [hskip]
            exact (ite_self _).symm
        · rw [if_neg]
          rintro ⟨m', hm', hrest⟩
          rcases List.mem_cons.mp hm' with rfl | hm'l
          · exact hhead hrest
          · exact hcond ⟨m', hm'l, hrest⟩
    · rw [hsome, if_pos ⟨m, List.mem_cons_self m l, hm, hk⟩]

/-- Which keys a fresh `MonitorMetrics` store has: `loss`, plus `m` and
`m_std` for every recognized declared `m`. -/
theorem storeLookup_init (names : List String) (k : String) :
    storeLookup (init_metrics names) k =
      if k = "loss" ∨ ∃ m ∈ recognized, m ∈ names ∧ (k = m ∨ k = m ++ "_std")
      then some [] else none := by
  rw [init_metrics_eq_flat]
  by_cases hl : k = "loss"
  · subst hl
    simp [storeLookup]
  · have : storeLookup (("loss", ([] : List ℚ)) ::
        recognized.flatMap (fun m => stdPair m names)) k =
        storeLookup (recognized.flatMap (fun m => stdPair m names)) k := by
      simp [storeLookup, Ne.symm hl]
    rw [this]
    have := storeLookup_flat recognized names k []
    rw [List.append_nil] at this
    rw [this]
    by_cases hcond : ∃ m ∈ recognized, m ∈ names ∧ (k = m ∨ k = m ++ "_std")
    · rw [if_pos hcond, if_pos (Or.inr hcond)]
    · rw [if_neg hcond, if_neg (fun hc => hc.elim hl hcond)]
      rfl

theorem storeLookup_init_loss (names : List String) :
    storeLookup (init_metrics names) "loss" = some [] := by
  rw [storeLookup_init]
  simp

theorem loss_not_recognized : "loss" ∉ recognized := by decide

theorem storeLookup_init_tracked (names : List String) (m : String)
    (hm : m ∈ recognized) (hdecl : m ∈ names) :
    storeLookup (init_metrics names) m = some [] ∧
      storeLookup (init_metrics names) (m ++ "_std") = some [] := by
  constructor
  · rw [storeLookup_init, if_pos (Or.inr ⟨m, hm, hdecl, Or.inl rfl⟩)]
  · rw [storeLookup_init, if_pos (Or.inr ⟨m, hm, hdecl, Or.inr rfl⟩)]

theorem argmaxAux_spec (l : List ℚ) : ∀ (bi i : ℕ) (bv : ℚ),
    (argmaxAux bi bv i l = bi ∧ ∀ k, k < l.length → l.getD k 0 ≤ bv) ∨
    (∃ k, k < l.length ∧ argmaxAux bi bv i l = i + k ∧ bv < l.getD k 0 ∧
      (∀ j, j < l.length → l.getD j 0 ≤ l.getD k 0) ∧
      (∀ j, j < k → l.getD j 0 < l.getD k 0)) := by
  induction l with
  | nil => exact fun bi i bv => Or.inl ⟨rfl, fun k hk => absurd hk (by simp)⟩
  | cons v rest ih =>
    intro bi i bv
    by_cases hbv : bv < v
    · rw [show argmaxAux bi bv i (v :: rest) = argmaxAux i v (i + 1) rest by
        simp [argmaxAux, hbv]]
      rcases ih i (i + 1) v with ⟨heq, hb⟩ | ⟨k, hk, heq, hlt, hb, hstrict⟩
      · refine Or.inr ⟨0, by simp, by simpa using heq, by simpa using hbv, ?_, ?_⟩
        · intro j hj
          cases j with
          | zero => simp
          | succ j => simpa using hb j (by simpa using hj)
        · intro j hj
          exact absurd hj (by simp)
      · refine Or.inr ⟨k + 1, by simp; omega, by rw [heq]; omega, ?_, ?_, ?_⟩
        · simpa using hbv.trans hlt
        · intro j hj
          cases j with
          | zero => simpa using hlt.le
          | succ j => simpa using hb j (by simpa using hj)
        · intro j hj
          cases j with
          | zero => simpa using hlt
          | succ j => simpa using hstrict j (by omega)
    · rw [show argmaxAux bi bv i (v :: rest) = argmaxAux bi bv (i + 1) rest by
        simp [argmaxAux, hbv]]
      rcases ih bi (i + 1) bv with ⟨heq, hb⟩ | ⟨k, hk, heq, hlt, hb, hstrict⟩
      · refine Or.inl ⟨heq, ?_⟩
        intro j hj
        cases j with
        | zero => simpa using not_lt.mp hbv
        | succ j => simpa using hb j (by simpa using hj)
      · refine Or.inr ⟨k + 1, by simp; omega, by rw [heq]; omega, ?_, ?_, ?_⟩
        · simpa using hlt
        · intro j hj
          cases j with
          | zero => simpa using (not_lt.mp hbv).trans hlt.le
          | succ j => simpa using hb j (by simpa using hj)
        · intro j hj
          cases j with
          | zero => simpa using lt_of_le_of_lt (not_lt.mp hbv) hlt
          | succ j => simpa using hstrict j (by omega)

/-- `np.argmax` semantics: a valid index attaining the maximum, with all
strictly earlier entries strictly below it (earliest tie wins). -/
theorem argmaxList_spec (l : List ℚ) (hne : l ≠ []) :
    argmaxList l < l.length ∧
      (∀ j, j < l.length → l.getD j 0 ≤ l.getD (argmaxList l) 0) ∧
      (∀ j, j < argmaxList l → l.getD j 0 < l.getD (argmaxList l) 0) := by
  cases l with
  | nil => exact absurd rfl hne
  | cons v rest =>
    rw [show argmaxList (v :: rest) = argmaxAux 0 v 1 rest from rfl]
    rcases argmaxAux_spec rest 0 1 v with ⟨heq, hb⟩ | ⟨k, hk, heq, hlt, hb, hstrict⟩
    · rw [heq]
      refine ⟨by simp, ?_, fun j hj => absurd hj (by simp)⟩
      intro j hj
      cases j with
      | zero => simp
      | succ j => simpa using hb j (by simpa using hj)
    · rw [heq, show 1 + k = k + 1 from Nat.add_comm 1 k]
      refine ⟨by simp; omega, ?_, ?_⟩
      · intro j hj
        cases j with
        | zero => simpa using hlt.le
        | succ j => simpa using hb j (by simpa using hj)
      · intro j hj
        cases j with
        | zero => simpa using hlt
        | succ j => simpa using hstrict j (by omega)

theorem argminAux_spec (l : List ℚ) : ∀ (bi i : ℕ) (bv : ℚ),
    (argminAux bi bv i l = bi ∧ ∀ k, k < l.length → bv ≤ l.getD k 0) ∨
    (∃ k, k < l.length ∧ argminAux bi bv i l = i + k ∧ l.getD k 0 < bv ∧
      (∀ j, j < l.length → l.getD k 0 ≤ l.getD j 0) ∧
      (∀ j, j < k → l.getD k 0 < l.getD j 0)) := by
  induction l with
  | nil => exact fun bi i bv => Or.inl ⟨rfl, fun k hk => absurd hk (by simp)⟩
  | cons v rest ih =>
    intro bi i bv
    by_cases hbv : v < bv
    · rw [show argminAux bi bv i (v :: rest) = argminAux i v (i + 1) rest by
        simp [argminAux, hbv]]
      rcases ih i (i + 1) v with ⟨heq, hb⟩ | ⟨k, hk, heq, hlt, hb, hstrict⟩
      · refine Or.inr ⟨0, by simp, by simpa using heq, by simpa using hbv, ?_, ?_⟩
        · intro j hj
          cases j with
          | zero => simp
          | succ j => simpa using hb j (by simpa using hj)
        · intro j hj
          exact absurd hj (by simp)
      · refine Or.inr ⟨k + 1, by simp; omega, by rw [heq]; omega, ?_, ?_, ?_⟩
        · simpa using hlt.trans hbv
        · intro j hj
          cases j with
          | zero => simpa using hlt.le
          | succ j => simpa using hb j (by simpa using hj)
        · intro j hj
          cases j with
          | zero => simpa using hlt
          | succ j => simpa using hstrict j (by omega)
    · rw [show argminAux bi bv i (v :: rest) = argminAux bi bv (i + 1) rest by
        simp [argminAux, hbv]]
      rcases ih bi (i + 1) bv with ⟨heq, hb⟩ | ⟨k, hk, heq, hlt, hb, hstrict⟩
      · refine Or.inl ⟨heq, ?_⟩
        intro j hj
        cases j with
        | zero => simpa using not_lt.mp hbv
        | succ j => simpa using hb j (by simpa using hj)
      · refine Or.inr ⟨k + 1, by simp; omega, by rw [heq]; omega, ?_, ?_, ?_⟩
        · simpa using hlt
        · intro j hj
          cases j with
          | zero => simpa using hlt.le.trans (not_lt.mp hbv)
          | succ j => simpa using hb j (by simpa using hj)
        · intro j hj
          cases j with
          | zero => simpa using lt_of_lt_of_le hlt (not_lt.mp hbv)
          | succ j => simpa using hstrict j (by omega)

/-- `np.argmin` semantics: a valid index attaining the minimum, with all
strictly earlier entries strictly above it (earliest tie wins). -/
theorem argminList_spec (l : List ℚ) (hne : l ≠ []) :
    argminList l < l.length ∧
      (∀ j, j < l.length → l.getD (argminList l) 0 ≤ l.getD j 0) ∧
      (∀ j, j < argminList l → l.getD (argminList l) 0 < l.getD j 0) := by
  cases l with
  | nil => exact absurd rfl hne
  | cons v rest =>
    rw [show argminList (v :: rest) = argminAux 0 v 1 rest from rfl]
    rcases argminAux_spec rest 0 1 v with ⟨heq, hb⟩ | ⟨k, hk, heq, hlt, hb, hstrict⟩
    · rw [heq]
      refine ⟨by simp, ?_, fun j hj => absurd hj (by simp)⟩
      intro j hj
      cases j with
      | zero => simp
      | succ j => simpa using hb j (by simpa using hj)
    · rw [heq, show 1 + k = k + 1 from Nat.add_comm 1 k]
      refine ⟨by simp; omega, ?_, ?_⟩
      · intro j hj
        cases j with
        | zero => simpa using hlt.le
        | succ j => simpa using hb j (by simpa using hj)
      · intro j hj
        cases j with
        | zero => simpa using hlt
        | succ j => simpa using hstrict j (by omega)

theorem mem_tracked_iff (names : List String) (m : String) :
    m ∈ tracked names ↔ (m = "loss" ∨ (m ∈ recognized ∧ m ∈ names)) := by
  simp [tracked, List.mem_filter]

theorem appendedVals_length_tracked (c : List (String × List ℚ)) (m : String)
    (hm : m ∈ "loss" :: recognized) (hnd : (c.map Prod.fst).Nodup) :
    (appendedVals c m).length = if m ∈ c.map Prod.fst then 1 else 0 := by
  induction c with
  | nil => simp [appendedVals]
  | cons e rest ih =>
    have hstd : ¬ (e.1 ≠ "loss" ∧ e.1 ++ "_std" = m) := by
      rintro ⟨-, hc⟩
      exact recognized_ne_append_std m e.1 hm hc
    simp only [List.map_cons, List.nodup_cons] at hnd
    by_cases he : e.1 = m
    · have hrest : m ∉ rest.map Prod.fst := he ▸ hnd.1
      rw [show appendedVals (e :: rest) m =
        ((if e.1 = m then [nanmean e.2] else []) ++
          (if e.1 ≠ "loss" ∧ e.1 ++ "_std" = m then [nanstd e.2] else [])) ++
            appendedVals rest m from rfl]
      rw [if_pos he, if_neg hstd]
      simp [ih hnd.2, he, hrest]
    · rw [show appendedVals (e :: rest) m =
        ((if e.1 = m then [nanmean e.2] else []) ++
          (if e.1 ≠ "loss" ∧ e.1 ++ "_std" = m then [nanstd e.2] else [])) ++
            appendedVals rest m from rfl]
      rw [if_neg he, if_neg hstd]
      have hms : ¬ m = e.1 := fun hc => he hc.symm
      have hcons : (m ∈ e.1 :: List.map Prod.fst rest) ↔ m ∈ List.map Prod.fst rest := by
        simp [List.mem_cons, hms]
      by_cases hmr : m ∈ List.map Prod.fst rest
      · simp [ih hnd.2, hmr, hcons.mpr hmr]
      · rw [List.map_cons, if_neg (fun hc => hmr (hcons.mp hc))]
        simp [ih hnd.2, hmr]

theorem appendedValsSeq_length_tracked (calls : List (List (String × List ℚ)))
    (m : String) (hm : m ∈ "loss" :: recognized)
    (hnd : ∀ c ∈ calls, (c.map Prod.fst).Nodup) :
    (appendedValsSeq calls m).length =
      (calls.filter (fun c => decide (m ∈ c.map Prod.fst))).length := by
  induction calls with
  | nil => simp [appendedValsSeq]
  | cons c cs ih =>
    rw [show appendedValsSeq (c :: cs) m = appendedVals c m ++ appendedValsSeq cs m
      from rfl]
    rw [List.length_append,
      appendedVals_length_tracked c m hm (hnd c (by simp)),
      ih (fun c' hc' => hnd c' (by simp [hc']))]
    by_cases hmem : m ∈ c.map Prod.fst
    · simp [hmem, Nat.add_comm]
    · simp [hmem]

/-- C5: after any successful sequence of `update` calls on a fresh
`MonitorMetrics`, every tracked metric's history length equals the number of
calls that named it, and a `_std` history exists exactly for the tracked
non-`loss` metrics. -/
theorem monitor_histories_track_update_counts (names : List String)
    (calls : List (List (String × List ℚ))) (s : Store)
    (hnd : ∀ c ∈ calls, (c.map Prod.fst).Nodup)
    (hs : monitorUpdates (init_metrics names) calls = some s) :
    (∀ m ∈ tracked names, ∃ h, storeLookup s m = some h ∧
        h.length = (calls.filter (fun c => decide (m ∈ c.map Prod.fst))).length) ∧
    (∀ m : String, (∃ h, storeLookup s (m ++ "_std") = some h) ↔
        (m ∈ tracked names ∧ m ≠ "loss")) := by
  constructor
  · intro m hm
    have hm' : m ∈ "loss" :: recognized := by
      rcases (mem_tracked_iff names m).mp hm with rfl | ⟨hr, -⟩
      · exact List.mem_cons_self _ _
      · exact List.mem_cons_of_mem _ hr
    have hinit : storeLookup (init_metrics names) m = some [] := by
      rcases (mem_tracked_iff names m).mp hm with rfl | ⟨hr, hd⟩
      · exact storeLookup_init_loss names
      · exact (storeLookup_init_tracked names m hr hd).1
    have := monitorUpdates_lookup calls _ s hs m [] hinit
    refine ⟨appendedValsSeq calls m, by simpa using this, ?_⟩
    exact appendedValsSeq_length_tracked calls m hm' hnd
  · intro m
    constructor
    · rintro ⟨h, hh⟩
      have hne : storeLookup (init_metrics names) (m ++ "_std") ≠ none := by
        intro hc
        have := (monitorUpdates_none_pres calls _ s hs (m ++ "_std")).mpr hc
        rw [hh] at this
        exact absurd this (by simp)
      rw [storeLookup_init] at hne
      by_cases hcond : (m ++ "_std") = "loss" ∨
          ∃ m' ∈ recognized, m' ∈ names ∧ (m ++ "_std" = m' ∨ m ++ "_std" = m' ++ "_std")
      · rcases hcond with hc | ⟨m', hm', hd', hc⟩
        · exact absurd hc (recognized_ne_append_std "loss" m (List.mem_cons_self _ _))
        · rcases hc with hc | hc
          · exact absurd hc (recognized_ne_append_std m' m (List.mem_cons_of_mem _ hm'))
          · have : m = m' := append_std_cancel m m' hc
            subst this
            refine ⟨(mem_tracked_iff names m).mpr (Or.inr ⟨hm', hd'⟩), ?_⟩
            intro hc'
            exact loss_not_recognized (hc' ▸ hm')
      · rw [if_neg hcond] at hne
        exact absurd rfl hne
    · rintro ⟨hm, hnl⟩
      rcases (mem_tracked_iff names m).mp hm with rfl | ⟨hr, hd⟩
      · exact absurd rfl hnl
      · have hinit := (storeLookup_init_tracked names m hr hd).2
        have := monitorUpdates_lookup calls _ s hs (m ++ "_std") [] hinit
        exact ⟨appendedValsSeq calls (m ++ "_std"), by simpa using this⟩

/-- C3: `early_stopping` signals stop exactly when `patience` minus the
number of entries recorded after the best entry is non-positive, where the
best entry is the earliest minimum of the validation history for `loss` and
the earliest maximum for any other metric. -/
theorem early_stopping_spec (tm : TrainMetrics) (metric : String) (patience : ℤ)
    (vals : List ℚ) (hv : storeLookup tm.valid metric = some vals) (hne : vals ≠ []) :
    (early_stopping tm metric patience =
      some (decide (patience - ((vals.length : ℤ) -
        ((if metric = "loss" then argminList vals else argmaxList vals) : ℕ) - 1) ≤ 0))) ∧
    (if metric = "loss" then argminList vals else argmaxList vals) < vals.length ∧
    (if metric = "loss"
      then (∀ j, j < vals.length → vals.getD (argminList vals) 0 ≤ vals.getD j 0) ∧
        (∀ j, j < argminList vals → vals.getD (argminList vals) 0 < vals.getD j 0)
      else (∀ j, j < vals.length → vals.getD j 0 ≤ vals.getD (argmaxList vals) 0) ∧
        (∀ j, j < argmaxList vals → vals.getD j 0 < vals.getD (argmaxList vals) 0)) ∧
    (early_stopping tm metric patience = some true ↔
      patience - ((vals.length : ℤ) -
        ((if metric = "loss" then argminList vals else argmaxList vals) : ℕ) - 1) ≤ 0) := by
  have hes : early_stopping tm metric patience =
      some (decide (patience - ((vals.length : ℤ) -
        ((if metric = "loss" then argminList vals else argmaxList vals) : ℕ) - 1) ≤ 0)) := by
    simp only [early_stopping, hv]
    rw [if_neg (by simpa [List.isEmpty_iff] using hne)]
  refine ⟨hes, ?_, ?_, ?_⟩
  · by_cases hm : metric = "loss"
    · simpa [hm] using (argminList_spec vals hne).1
    · simpa [hm] using (argmaxList_spec vals hne).1
  · by_cases hm : metric = "loss"
    · simp only [hm, if_pos rfl]
      exact ⟨(argminList_spec vals hne).2.1, (argminList_spec vals hne).2.2⟩
    · simp only [if_neg hm]
      exact ⟨(argmaxList_spec vals hne).2.1, (argmaxList_spec vals hne).2.2⟩
  · rw [hes]
    simp [decide_eq_true_iff]

/-- C6: `TrainMetrics.update` with a split name other than `train`, `valid`
or `test` is a silent no-op: no error and no change to any store. -/
theorem train_metrics_unknown_split_noop (tm : TrainMetrics) (name : String)
    (kwargs : List (String × List ℚ))
    (h1 : name ≠ "train") (h2 : name ≠ "valid") (h3 : name ≠ "test") :
    TrainMetrics.update tm name kwargs = some tm := by
  simp [TrainMetrics.update, h1, h2, h3]

/-- C7: an `update` call naming a metric that got no history at construction
time fails with a `KeyError`, after any prior successful updates. -/
theorem update_unknown_metric_fails (names : List String)
    (calls : List (List (String × List ℚ))) (s : Store)
    (c : List (String × List ℚ)) (name : String)
    (hs : monitorUpdates (init_metrics names) calls = some s)
    (hmiss : storeLookup (init_metrics names) name = none)
    (hmem : name ∈ c.map Prod.fst) :
    monitorUpdate s c = none :=
  monitorUpdate_fails_of_missing c s name hmem
    ((monitorUpdates_none_pres calls _ s hs name).mpr hmiss)

/-- C10 counterexample: `acc_std` lies outside the recognized metric set,
yet declaring it alongside `acc` does create a history for it. -/
theorem init_unrecognized_counterexample :
    "acc_std" ∉ ("loss" :: recognized) ∧ "acc_std" ∈ ["acc", "acc_std"] ∧
      storeLookup (init_metrics ["acc", "acc_std"]) "acc_std" = some [] :=
  ⟨by decide, by decide, by rfl⟩

/-- C10 amended: a declared metric name outside the recognized set gets no
history unless it is the `_std` companion of a recognized declared metric,
and in every case an update call naming it fails with a `KeyError`. -/
theorem init_unrecognized_name (names : List String) (name : String)
    (c : List (String × List ℚ))
    (hn : name ∉ "loss" :: recognized) (_hdecl : name ∈ names)
    (hmem : name ∈ c.map Prod.fst) :
    ((¬ ∃ m ∈ recognized, m ∈ names ∧ name = m ++ "_std") →
      storeLookup (init_metrics names) name = none) ∧
    monitorUpdate (init_metrics names) c = none := by
  have hnl : name ≠ "loss" := fun hc => hn (hc ▸ List.mem_cons_self _ _)
  have hnr : name ∉ recognized := fun hc => hn (List.mem_cons_of_mem _ hc)
  constructor
  · intro hnot
    rw [storeLookup_init, if_neg]
    rintro (hc | ⟨m, hm, hd, hc | hc⟩)
    · exact hnl hc
    · exact hnr (hc ▸ hm)
    · exact hnot ⟨m, hm, hd, hc⟩
  · apply monitorUpdate_fails_of_missing_std c _ name hmem hnl
    rw [storeLookup_init, if_neg]
    rintro (hc | ⟨m, hm, hd, hc | hc⟩)
    · exact recognized_ne_append_std "loss" name (List.mem_cons_self _ _) hc
    · exact recognized_ne_append_std m name (List.mem_cons_of_mem _ hm) hc
    · exact hnr (by rw [append_std_cancel name m hc]; exact hm)

/-- C1: with shuffling disabled, `train_epoch` never reaches the batch loop:
the local `batch_dataset` is assigned only under `if shuffle:`, so
`len(list(batch_dataset))` raises `UnboundLocalError` for every dataset. -/
theorem train_epoch_no_shuffle_crashes {α β γ : Type} (batches : List (α × β))
    (step : α × β → ℚ × γ) :
    train_epoch batches step false = none := rfl

theorem status_keeps_config (d : LRDecay) (v : ℚ) :
    (d.status v).2.patience = d.patience ∧ (d.status v).2.sign = d.sign ∧
      (d.status v).2.lr = d.lr ∧ (d.status v).2.decay_rate = d.decay_rate := by
  unfold LRDecay.status
  split_ifs <;> simp

theorem check_keeps_config (d : LRDecay) (v : ℚ) :
    (d.check v).patience = d.patience ∧ (d.check v).sign = d.sign ∧
      (d.check v).decay_rate = d.decay_rate := by
  unfold LRDecay.check LRDecay.status
  split_ifs <;> simp

theorem check_lr (d : LRDecay) (v : ℚ) :
    (d.check v).lr = if (d.status v).1 then d.lr * d.decay_rate else d.lr := by
  rcases hs : d.status v with ⟨b, d1⟩
  have h1 : d1.lr = d.lr := by
    have := (status_keeps_config d v).2.2.1
    rw [hs] at this
    exact this
  have h2 : d1.decay_rate = d.decay_rate := by
    have := (status_keeps_config d v).2.2.2
    rw [hs] at this
    exact this
  unfold LRDecay.check
  rw [hs]
  cases b
  · simp [h1]
  · simp [h1, h2]

theorem runChecks_lr (l : List ℚ) : ∀ d : LRDecay,
    (d.runChecks l).lr = d.lr * d.decay_rate ^ (d.fires l) := by
  induction l with
  | nil => intro d; simp [LRDecay.runChecks, LRDecay.fires]
  | cons v rest ih =>
    intro d
    rw [show d.runChecks (v :: rest) = (d.check v).runChecks rest from rfl]
    rw [show d.fires (v :: rest) =
      (if (d.status v).1 then 1 else 0) + (d.check v).fires rest from rfl]
    rw [ih (d.check v), check_lr, (check_keeps_config d v).2.2]
    by_cases h : (d.status v).1
    · simp [h, pow_succ, pow_add]
      ring
    · simp [h]

theorem status_no_improve (d : LRDecay) (v : ℚ)
    (h : ¬ (d.sign : ℚ) * v < (d.sign : ℚ) * d.best_val) :
    d.status v = (if d.index + 1 = d.patience
      then (true, { d with index := 0 })
      else (false, { d with index := d.index + 1 })) := by
  unfold LRDecay.status
  rw [if_neg h]

/-- Counting fires over a constant tail: once the best value equals the fed
constant, the counter cycles with period `patience`. -/
theorem fires_const_aux (p : ℕ) (hp : 0 < p) (v : ℚ) (m : ℕ) : ∀ d : LRDecay,
    d.patience = p → d.best_val = v → d.index < p →
    d.fires (List.replicate m v) = (m + d.index) / p := by
  induction m with
  | zero =>
    intro d hp1 hb hi
    rw [show List.replicate 0 v = ([] : List ℚ) from rfl]
    rw [show d.fires [] = 0 from rfl]
    exact (Nat.div_eq_of_lt (by simpa using hi)).symm
  | succ m ih =>
    intro d hp1 hb hi
    rw [List.replicate_succ]
    rw [show d.fires (v :: List.replicate m v) =
      (if (d.status v).1 then 1 else 0) + (d.check v).fires (List.replicate m v) from rfl]
    have hni : ¬ (d.sign : ℚ) * v < (d.sign : ℚ) * d.best_val := by
      rw [hb]
      exact lt_irrefl _
    have hst := status_no_improve d v hni
    by_cases hfire : d.index + 1 = d.patience
    · rw [if_pos hfire] at hst
      have hck : d.check v = { { d with index := 0 } with
          lr := d.lr * d.decay_rate } := by
        simp [LRDecay.check, hst]
      have hb1 : (d.status v).1 = true := by rw [hst]
      have h0 : (d.check v).index = 0 := by rw [hck]
      have hrec : (d.check v).fires (List.replicate m v) = m / p := by
        have := ih (d.check v) (by rw [hck]; exact hp1) (by rw [hck]; exact hb)
          (by rw [h0]; exact hp)
        rw [h0] at this
        simpa using this
      rw [hb1, hrec]
      simp only [if_pos (rfl : true = true)]
      have hidx : d.index = p - 1 := by omega
      rw [hidx]
      have h1 : m + 1 + (p - 1) = m + p := by omega
      rw [h1, Nat.add_div_right m hp]
      exact Nat.add_comm 1 (m / p)
    · rw [if_neg hfire] at hst
      have hck : d.check v = { d with index := d.index + 1 } := by
        simp [LRDecay.check, hst]
      have hb0 : (d.status v).1 = false := by rw [hst]
      have h0 : (d.check v).index = d.index + 1 := by rw [hck]
      have hrec : (d.check v).fires (List.replicate m v) = (m + (d.index + 1)) / p := by
        have := ih (d.check v) (by rw [hck]; exact hp1) (by rw [hck]; exact hb)
          (by rw [h0]; omega)
        rw [h0] at this
        exact this
      rw [hb0, hrec]
      have h1 : m + (d.index + 1) = m + 1 + d.index := by omega
      rw [h1]
      simp

/-- C2 counterexample: a constant sequence of length `len = patience = 1`
whose value improves on the initial sentinel fires zero decays, not
`floor(len/patience) = 1`. -/
theorem lr_decay_const_counterexample :
    (LRDecay.make 1 1 1 "loss").fires (List.replicate 1 0) = 0 ∧
      (1 : ℕ) / 1 = 1 ∧
      ((LRDecay.make 1 1 1 "loss").runChecks (List.replicate 1 0)).lr = 1 := by
  have himp : ((1 : ℤ) : ℚ) * 0 < ((1 : ℤ) : ℚ) * 10000000000 := by norm_num
  have hcond : ((LRDecay.make 1 1 1 "loss").sign : ℚ) * 0 <
      ((LRDecay.make 1 1 1 "loss").sign : ℚ) * (LRDecay.make 1 1 1 "loss").best_val := by
    norm_num [LRDecay.make]
  have hst : (LRDecay.make 1 1 1 "loss").status 0 =
      (false, { LRDecay.make 1 1 1 "loss" with best_val := 0, index := 0 }) := by
    unfold LRDecay.status
    rw [if_pos hcond]
  refine ⟨?_, rfl, ?_⟩
  · rw [show List.replicate 1 (0 : ℚ) = [0] from rfl]
    rw [show (LRDecay.make 1 1 1 "loss").fires [0] =
      (if ((LRDecay.make 1 1 1 "loss").status 0).1 then 1 else 0) +
        ((LRDecay.make 1 1 1 "loss").check 0).fires [] from rfl]
    rw [hst]
    rfl
  · rw [show List.replicate 1 (0 : ℚ) = [0] from rfl]
    rw [show (LRDecay.make 1 1 1 "loss").runChecks [0] =
      ((LRDecay.make 1 1 1 "loss").check 0).runChecks [] from rfl]
    have hck : (LRDecay.make 1 1 1 "loss").check 0 =
        { LRDecay.make 1 1 1 "loss" with best_val := 0, index := 0 } := by
      simp [LRDecay.check, hst]
    rw [hck]
    simp [LRDecay.runChecks, LRDecay.make]

/-- C2 amended: for a constant sequence whose value the fresh `LRDecay`
state counts as an improvement (any value below the `1e10` sentinel for
`loss`, above `-1e10` otherwise), the first call records the value as best,
and the learning rate is then multiplied by `decay_rate` exactly
`floor((len - 1) / patience)` times over the sequence. -/
theorem lr_decay_const_seq (lr dr : ℚ) (p len : ℕ) (metric : String) (v : ℚ)
    (hp : 1 ≤ p) (hlen : p ≤ len)
    (himp : ((LRDecay.make lr dr p metric).sign : ℚ) * v <
      ((LRDecay.make lr dr p metric).sign : ℚ) * (LRDecay.make lr dr p metric).best_val) :
    (LRDecay.make lr dr p metric).fires (List.replicate len v) = (len - 1) / p ∧
    ((LRDecay.make lr dr p metric).runChecks (List.replicate len v)).lr =
      lr * dr ^ ((len - 1) / p) := by
  have hp0 : 0 < p := hp
  have hlen1 : 1 ≤ len := le_trans hp hlen
  set d0 := LRDecay.make lr dr p metric with hd0
  have hcfg : d0.patience = p ∧ d0.lr = lr ∧ d0.decay_rate = dr := by
    rw [hd0]
    unfold LRDecay.make
    split_ifs <;> simp
  have hst : d0.status v = (false, { d0 with best_val := v, index := 0 }) := by
    unfold LRDecay.status
    rw [if_pos himp]
  have hck : d0.check v = { d0 with best_val := v, index := 0 } := by
    simp [LRDecay.check, hst]
  have hfires : d0.fires (List.replicate len v) = (len - 1) / p := by
    obtain ⟨len', rfl⟩ : ∃ len', len = len' + 1 := ⟨len - 1, by omega⟩
    rw [List.replicate_succ]
    rw [show d0.fires (v :: List.replicate len' v) =
      (if (d0.status v).1 then 1 else 0) + (d0.check v).fires (List.replicate len' v)
      from rfl]
    rw [hst, hck]
    have := fires_const_aux p hp0 v len' { d0 with best_val := v, index := 0 }
      (by simp [hcfg.1]) (by simp) (by simpa using hp0)
    rw [this]
    simp
  refine ⟨hfires, ?_⟩
  rw [runChecks_lr, hfires, hcfg.2.1, hcfg.2.2]

/-- C4 counterexample: the best value after initialization is the finite
sentinel `1e10`, not `+∞`: the finite first value `2e10` does not count as
an improvement for metric `loss` (the counter advances instead). -/
theorem lr_decay_init_sentinel_counterexample :
    (LRDecay.make 1 1 3 "loss").best_val = 10000000000 ∧
    ((LRDecay.make 1 1 3 "loss").status 20000000000).2.best_val = 10000000000 ∧
    ((LRDecay.make 1 1 3 "loss").status 20000000000).1 = false ∧
    ((LRDecay.make 1 1 3 "loss").status 20000000000).2.index = 1 := by
  have hmk : LRDecay.make 1 1 3 "loss" = ⟨1, 1, 3, "loss", 0, 10000000000, 1⟩ := by
    unfold LRDecay.make
    rw [if_pos rfl]
  have hcond : ¬ (((LRDecay.make 1 1 3 "loss").sign : ℚ) * 20000000000 <
      ((LRDecay.make 1 1 3 "loss").sign : ℚ) * (LRDecay.make 1 1 3 "loss").best_val) := by
    rw [hmk]
    norm_num
  have hst := status_no_improve _ _ hcond
  rw [if_neg (by rw [hmk]; norm_num)] at hst
  rw [hst, hmk]
  norm_num

/-- C4 amended: initialization uses the finite sentinels `1e10` (metric
`loss`, minimizing) and `-1e10` (any other metric, maximizing), so exactly
the first values strictly inside the sentinel counts as improvements: they
are recorded as the new best with the counter reset and no decay fired. -/
theorem lr_decay_init_spec (lr dr : ℚ) (p : ℕ) (metric : String) (v : ℚ) :
    ((LRDecay.make lr dr p "loss").best_val = 10000000000 ∧
      (LRDecay.make lr dr p "loss").sign = 1 ∧
      (v < 10000000000 →
        ((LRDecay.make lr dr p "loss").status v).2.best_val = v ∧
          ((LRDecay.make lr dr p "loss").status v).2.index = 0 ∧
          ((LRDecay.make lr dr p "loss").status v).1 = false)) ∧
    (metric ≠ "loss" →
      (LRDecay.make lr dr p metric).best_val = -10000000000 ∧
        (LRDecay.make lr dr p metric).sign = -1 ∧
        (-10000000000 < v →
          ((LRDecay.make lr dr p metric).status v).2.best_val = v ∧
            ((LRDecay.make lr dr p metric).status v).2.index = 0 ∧
            ((LRDecay.make lr dr p metric).status v).1 = false)) := by
  have hmk1 : LRDecay.make lr dr p "loss" = ⟨lr, dr, p, "loss", 0, 10000000000, 1⟩ := by
    unfold LRDecay.make
    rw [if_pos rfl]
  constructor
  · refine ⟨by rw [hmk1], by rw [hmk1], ?_⟩
    intro hv
    have hcond : ((LRDecay.make lr dr p "loss").sign : ℚ) * v <
        ((LRDecay.make lr dr p "loss").sign : ℚ) * (LRDecay.make lr dr p "loss").best_val := by
      rw [hmk1]
      push_cast
      linarith
    have hst : (LRDecay.make lr dr p "loss").status v =
        (false, { LRDecay.make lr dr p "loss" with best_val := v, index := 0 }) := by
      unfold LRDecay.status
      rw [if_pos hcond]
    rw [hst]
    exact ⟨rfl, rfl, rfl⟩
  · intro hm
    have hmk2 : LRDecay.make lr dr p metric = ⟨lr, dr, p, metric, 0, -10000000000, -1⟩ := by
      unfold LRDecay.make
      rw [if_neg hm]
    refine ⟨by rw [hmk2], by rw [hmk2], ?_⟩
    intro hv
    have hcond : ((LRDecay.make lr dr p metric).sign : ℚ) * v <
        ((LRDecay.make lr dr p metric).sign : ℚ) * (LRDecay.make lr dr p metric).best_val := by
      rw [hmk2]
      push_cast
      linarith
    have hst : (LRDecay.make lr dr p metric).status v =
        (false, { LRDecay.make lr dr p metric with best_val := v, index := 0 }) := by
      unfold LRDecay.status
      rw [if_pos hcond]
    rw [hst]
    exact ⟨rfl, rfl, rfl⟩

theorem digitChar_ne_newline (n : ℕ) : digitChar n ≠ '\n' := by
  unfold digitChar
  split <;> decide

theorem natDigits_mem (n : ℕ) : ∀ c ∈ natDigits n, c ≠ '\n' := by
  induction n using Nat.strong_induction_on with
  | _ n ih =>
    rw [natDigits]
    split_ifs with h
    · intro c hc
      simp only [List.mem_singleton] at hc
      subst hc
      exact digitChar_ne_newline n
    · intro c hc
      rw [List.mem_append] at hc
      rcases hc with hc | hc
      · exact ih (n / 10) (Nat.div_lt_self (by omega) (by omega)) c hc
      · simp only [List.mem_singleton] at hc
        subst hc
        exact digitChar_ne_newline (n % 10)

theorem no_newline_append (a b : String) (ha : '\n' ∉ a.data) (hb : '\n' ∉ b.data) :
    '\n' ∉ (a ++ b).data := by
  rw [String.data_append]
  intro hc
  rcases List.mem_append.mp hc with hc | hc
  · exact ha hc
  · exact hb hc

theorem no_newline_natDigits (n : ℕ) : '\n' ∉ (String.mk (natDigits n)).data :=
  fun hc => natDigits_mem n _ hc rfl

theorem no_newline_pad (k n : ℕ) :
    '\n' ∉ (String.mk (List.replicate k '0' ++ natDigits n)).data := by
  intro hc
  rcases List.mem_append.mp hc with hc | hc
  · rcases List.mem_replicate.mp hc with ⟨-, hc2⟩
    exact absurd hc2 (by decide)
  · exact natDigits_mem n _ hc rfl

theorem no_newline_sign (n : ℤ) : '\n' ∉ (if n < 0 then ("-" : String) else "").data := by
  split_ifs <;> decide

theorem no_newline_dot : '\n' ∉ ("." : String).data := by decide

theorem no_newline_fmtFixed (p : ℕ) (q : ℚ) : '\n' ∉ (fmtFixed p q).data := by
  unfold fmtFixed
  split_ifs with h1
  · exact no_newline_append _ _ (no_newline_sign _) (no_newline_natDigits _)
  · exact no_newline_append _ _
      (no_newline_append _ _
        (no_newline_append _ _ (no_newline_sign _) (no_newline_natDigits _))
        no_newline_dot)
      (no_newline_pad _ _)

theorem no_newline_optPart (label : String) (v : Option ℚ) (hl : '\n' ∉ label.data) :
    '\n' ∉ (optPart label v).data := by
  cases v with
  | none =>
    intro hc
    rw [show optPart label none = "" from rfl] at hc
    exact absurd hc (by decide)
  | some x => exact no_newline_append _ _ hl (no_newline_fmtFixed 5 x)

theorem no_newline_kwSuffix (kw : ProgressKw) : '\n' ∉ (kwSuffix kw).data := by
  unfold kwSuffix
  refine no_newline_append _ _ (no_newline_append _ _ (no_newline_append _ _
    (no_newline_append _ _ (no_newline_append _ _ (no_newline_append _ _
      (no_newline_optPart _ _ (by decide)) (no_newline_optPart _ _ (by decide)))
      (no_newline_optPart _ _ (by decide))) (no_newline_optPart _ _ (by decide)))
      (no_newline_optPart _ _ (by decide))) (no_newline_optPart _ _ (by decide)))
    (no_newline_optPart _ _ (by decide))

theorem no_newline_replicate (k : ℕ) (c : Char) (h : c ≠ '\n') :
    '\n' ∉ (String.mk (List.replicate k c)).data := by
  intro hc
  rcases List.mem_replicate.mp hc with ⟨-, hc2⟩
  exact h hc2.symm

theorem str_append_assoc (a b c : String) : a ++ b ++ c = a ++ (b ++ c) := by
  apply String.ext
  simp [String.data_append, List.append_assoc]

/-- C9: on the final batch (`iter = num_batches`) the progress line carries
an elapsed-time summary and ends with a newline; strictly before the final
batch it carries the linearly extrapolated remaining time and contains no
newline at all. -/
theorem progress_bar_spec (iter num_batches : ℕ) (elapsed : ℚ) (bar_length : ℕ)
    (kw : ProgressKw) (hnb : 0 < num_batches) :
    (iter = num_batches →
      ∃ out, progress_bar iter num_batches elapsed bar_length kw = some out ∧
        strContains out (" -- elapsed time=" ++ fmtFixed 1 elapsed ++ "s") ∧
        ∃ t, out = t ++ "\n") ∧
    (iter < num_batches →
      ∃ out, progress_bar iter num_batches elapsed bar_length kw = some out ∧
        strContains out ("  -- remaining time=" ++
          fmtFixed 1 (elapsed * ((num_batches : ℚ) - ((iter : ℚ) + 1)) / ((iter : ℚ) + 1)) ++
          "s") ∧
        '\n' ∉ out.data) := by
  have hnb' : ¬ num_batches = 0 := by omega
  constructor
  · intro heq
    have hout : progress_bar iter num_batches elapsed bar_length kw =
        some ("\r[" ++ (String.mk (List.replicate
            (pyRound ((iter : ℚ) / (num_batches : ℚ) * (bar_length : ℚ))).toNat '=') ++
          String.mk (List.replicate ((bar_length : ℤ) -
            pyRound ((iter : ℚ) / (num_batches : ℚ) * (bar_length : ℚ))).toNat ' ')) ++
          "] " ++ fmtFixed 1 ((iter : ℚ) / (num_batches : ℚ) * 100) ++ "%" ++
          " -- elapsed time=" ++ fmtFixed 1 elapsed ++ "s" ++ kwSuffix kw ++ "\n") := by
      simp only [progress_bar]
      rw [if_neg hnb', if_pos heq]
    refine ⟨_, hout, ?_, ?_⟩
    · refine ⟨"\r[" ++ (String.mk (List.replicate
          (pyRound ((iter : ℚ) / (num_batches : ℚ) * (bar_length : ℚ))).toNat '=') ++
        String.mk (List.replicate ((bar_length : ℤ) -
          pyRound ((iter : ℚ) / (num_batches : ℚ) * (bar_length : ℚ))).toNat ' ')) ++
        "] " ++ fmtFixed 1 ((iter : ℚ) / (num_batches : ℚ) * 100) ++ "%",
        kwSuffix kw ++ "\n", ?_⟩
      simp only [str_append_assoc]
    · exact ⟨_, rfl⟩
  · intro hlt
    have hne : ¬ iter = num_batches := by omega
    have hout : progress_bar iter num_batches elapsed bar_length kw =
        some ("\r[" ++ (String.mk (List.replicate
            (pyRound ((iter : ℚ) / (num_batches : ℚ) * (bar_length : ℚ))).toNat '=') ++
          String.mk (List.replicate ((bar_length : ℤ) -
            pyRound ((iter : ℚ) / (num_batches : ℚ) * (bar_length : ℚ))).toNat ' ')) ++
          "] " ++ fmtFixed 1 ((iter : ℚ) / (num_batches : ℚ) * 100) ++ "%" ++
          "  -- remaining time=" ++
          fmtFixed 1 (elapsed * ((num_batches : ℚ) - ((iter : ℚ) + 1)) / ((iter : ℚ) + 1)) ++
          "s" ++ kwSuffix kw) := by
      simp only [progress_bar]
      rw [if_neg hnb', if_neg hne]
    refine ⟨_, hout, ?_, ?_⟩
    · refine ⟨"\r[" ++ (String.mk (List.replicate
          (pyRound ((iter : ℚ) / (num_batches : ℚ) * (bar_length : ℚ))).toNat '=') ++
        String.mk (List.replicate ((bar_length : ℤ) -
          pyRound ((iter : ℚ) / (num_batches : ℚ) * (bar_length : ℚ))).toNat ' ')) ++
        "] " ++ fmtFixed 1 ((iter : ℚ) / (num_batches : ℚ) * 100) ++ "%",
        kwSuffix kw, ?_⟩
      simp only [str_append_assoc]
    · repeat' apply no_newline_append
      all_goals first
        | exact no_newline_kwSuffix kw
        | exact no_newline_fmtFixed _ _
        | exact no_newline_replicate _ _ (by decide)
        | exact no_newline_sign _
        | exact no_newline_natDigits _
        | exact no_newline_pad _ _
        | exact no_newline_optPart _ _ (by decide)
        | decide

theorem nanmean_singleton (x : ℚ) : nanmean [x] = x := by
  simp [nanmean]

theorem appendedVals_nil_of_not_mem (c : List (String × List ℚ)) (m : String)
    (hm : m ∈ "loss" :: recognized) (hnm : m ∉ c.map Prod.fst) :
    appendedVals c m = [] := by
  induction c with
  | nil => rfl
  | cons e rest ih =>
    simp only [List.map_cons, List.mem_cons] at hnm
    push_neg at hnm
    have hstd : ¬ (e.1 ≠ "loss" ∧ e.1 ++ "_std" = m) := by
      rintro ⟨-, hc⟩
      exact recognized_ne_append_std m e.1 hm hc
    rw [show appendedVals (e :: rest) m =
      ((if e.1 = m then [nanmean e.2] else []) ++
        (if e.1 ≠ "loss" ∧ e.1 ++ "_std" = m then [nanstd e.2] else [])) ++
          appendedVals rest m from rfl]
    rw [if_neg (fun hc => hnm.1 hc.symm), if_neg hstd, ih hnm.2]
    rfl

theorem appendedVals_single (c : List (String × List ℚ)) (m : String)
    (hm : m ∈ "loss" :: recognized) (hnd : (c.map Prod.fst).Nodup) :
    ∀ vs, (m, vs) ∈ c → appendedVals c m = [nanmean vs] := by
  induction c with
  | nil => intro vs hvs; simp at hvs
  | cons e rest ih =>
    intro vs hvs
    simp only [List.map_cons, List.nodup_cons] at hnd
    have hstd : ¬ (e.1 ≠ "loss" ∧ e.1 ++ "_std" = m) := by
      rintro ⟨-, hc⟩
      exact recognized_ne_append_std m e.1 hm hc
    rw [show appendedVals (e :: rest) m =
      ((if e.1 = m then [nanmean e.2] else []) ++
        (if e.1 ≠ "loss" ∧ e.1 ++ "_std" = m then [nanstd e.2] else [])) ++
          appendedVals rest m from rfl]
    rcases List.mem_cons.mp hvs with heq | hvs
    · have he1 : e.1 = m := by rw [← heq]
      have he2 : e.2 = vs := by rw [← heq]
      have hnm : m ∉ rest.map Prod.fst := he1 ▸ hnd.1
      rw [if_pos he1, if_neg hstd, appendedVals_nil_of_not_mem rest m hm hnm, he2]
      rfl
    · have he1 : e.1 ≠ m := by
        intro hc
        exact (hc ▸ hnd.1) (List.mem_map.mpr ⟨(m, vs), hvs, rfl⟩)
      rw [if_neg he1, if_neg hstd, ih hnd.2 vs hvs]
      rfl

theorem metric_dic_spec (names : List String) : ∀ (results : List ℚ) (i : ℕ),
    names.Nodup → i + names.length + 1 ≤ results.length →
    ∃ d, metric_dic names results i = some d ∧
      d.map Prod.fst = names ∧
      ∀ m, m ∈ names →
        (m, [results.getD (i + names.indexOf m + 1) 0]) ∈ d := by
  induction names with
  | nil =>
    intro results i hnd h
    exact ⟨[], rfl, rfl, by simp⟩
  | cons n rest ih =>
    intro results i hnd h
    simp only [List.length_cons] at h
    have hr : ∃ r, results.get? (i + 1) = some r := by
      rw [List.get?_eq_getElem?]
      have : i + 1 < results.length := by omega
      exact ⟨results[i + 1], by simp [List.getElem?_eq_getElem this]⟩
    obtain ⟨r, hr⟩ := hr
    obtain ⟨d, hd, hfst, hmem⟩ :=
      ih results (i + 1) (List.Nodup.of_cons hnd) (by omega)
    refine ⟨(n, [r]) :: d, ?_, by simp [hfst], ?_⟩
    · rw [show metric_dic (n :: rest) results i =
        (match results.get? (i + 1) with
          | none => none
          | some r => (metric_dic rest results (i + 1)).map (fun d => (n, [r]) :: d))
        from rfl]
      rw [hr, hd]
      rfl
    · intro m hm
      rcases List.mem_cons.mp hm with rfl | hm
      · have hidx : (m :: rest).indexOf m = 0 := by simp
        rw [hidx]
        have hval : results.getD (i + 0 + 1) 0 = r := by
          simp only [List.getD_eq_getElem?_getD]
          rw [List.get?_eq_getElem?] at hr
          simp [hr]
        rw [hval]
        exact List.mem_cons_self _ _
      · have hne : n ≠ m := by
          rintro rfl
          exact (List.nodup_cons.mp hnd).1 hm
        have hidx : (n :: rest).indexOf m = rest.indexOf m + 1 := by
          rw [List.indexOf_cons]
          rw [beq_eq_false_iff_ne.mpr hne]
          rfl
        rw [hidx]
        have harith : i + (rest.indexOf m + 1) + 1 = (i + 1) + rest.indexOf m + 1 := by
          omega
        rw [harith]
        exact List.mem_cons_of_mem _ (hmem m hm)

theorem isSome_of_none_iff {α : Type} {a b : Option α} (h : (a = none) ↔ (b = none)) :
    a.isSome = b.isSome := by
  cases ha : a <;> cases hb : b <;> simp_all

theorem train_metrics_update_valid (tm : TrainMetrics) (kw : List (String × List ℚ)) :
    TrainMetrics.update tm "valid" kw =
      (monitorUpdate tm.valid kw).map (fun s => { tm with valid := s }) := by
  unfold TrainMetrics.update
  rw [if_neg (by decide), if_pos rfl]

/-- Effect of `Trainer.evaluate` on the validation split: it succeeds, the
loss history gains `results[0]`, each model metric's history gains its value
from `results`, and the key set is unchanged. -/
theorem evaluate_valid (tm : TrainMetrics) (names : List String) (results : List ℚ)
    (hnd : names.Nodup) (hrec : ∀ m ∈ names, m ∈ recognized)
    (hlen : results.length = names.length + 1)
    (hloss : ∃ h, storeLookup tm.valid "loss" = some h)
    (htrk : ∀ m ∈ names, (∃ h, storeLookup tm.valid m = some h) ∧
      (∃ h', storeLookup tm.valid (m ++ "_std") = some h')) :
    ∃ tm', Trainer.evaluate tm "valid" names results = some tm' ∧
      (∃ h, storeLookup tm.valid "loss" = some h ∧
        storeLookup tm'.valid "loss" = some (h ++ [results.getD 0 0])) ∧
      (∀ m ∈ names, ∃ h, storeLookup tm.valid m = some h ∧
        storeLookup tm'.valid m = some (h ++ [results.getD (names.indexOf m + 1) 0])) ∧
      (∀ k, (storeLookup tm'.valid k = none) ↔ (storeLookup tm.valid k = none)) := by
  obtain ⟨dic, hdic, hfst, hmemd⟩ := metric_dic_spec names results 0 hnd (by omega)
  have h0lt : 0 < results.length := by omega
  have hl0 : results.get? 0 = some (results.getD 0 0) := by
    rw [List.get?_eq_getElem?, List.getElem?_eq_getElem h0lt]
    simp [List.getD_eq_getElem?_getD, List.getElem?_eq_getElem h0lt]
  have hlnm : "loss" ∉ names := fun hc => loss_not_recognized (hrec _ hc)
  obtain ⟨hL, hLs⟩ := hloss
  -- first update call: loss only
  have hs1some : (monitorUpdate tm.valid [("loss", [results.getD 0 0])]).isSome := by
    apply monitorUpdate_isSome
    intro e he
    simp only [List.mem_singleton] at he
    subst he
    exact ⟨by simp [hLs], fun hc => absurd rfl hc⟩
  obtain ⟨s1, hs1⟩ := Option.isSome_iff_exists.mp hs1some
  have hpres1 := fun k => monitorUpdate_none_pres _ _ _ hs1 k
  -- second update call: the metric dictionary
  have hdnd : (dic.map Prod.fst).Nodup := by rw [hfst]; exact hnd
  have hs2some : (monitorUpdate s1 dic).isSome := by
    apply monitorUpdate_isSome
    intro e he
    have hem : e.1 ∈ names := by
      rw [← hfst]
      exact List.mem_map.mpr ⟨e, he, rfl⟩
    obtain ⟨⟨hm1, hm1s⟩, ⟨hm2, hm2s⟩⟩ := htrk e.1 hem
    constructor
    · rw [isSome_of_none_iff (hpres1 e.1)]
      simp [hm1s]
    · intro hne
      rw [isSome_of_none_iff (hpres1 (e.1 ++ "_std"))]
      simp [hm2s]
  obtain ⟨s2, hs2⟩ := Option.isSome_iff_exists.mp hs2some
  have hpres2 := fun k => monitorUpdate_none_pres _ _ _ hs2 k
  -- the call chain of Trainer.evaluate
  have heval : Trainer.evaluate tm "valid" names results =
      some { tm with valid := s2 } := by
    unfold Trainer.evaluate
    rw [hdic, hl0]
    simp only [Option.bind_eq_bind, Option.some_bind, train_metrics_update_valid,
      hs1, hs2, Option.map_some']
  refine ⟨{ tm with valid := s2 }, heval, ?_, ?_, ?_⟩
  · -- loss history: appended by the first call, untouched by the second
    refine ⟨hL, hLs, ?_⟩
    have h1 := monitorUpdate_lookup _ _ _ hs1 "loss" hL hLs
    rw [appendedVals_single [("loss", [results.getD 0 0])] "loss"
      (List.mem_cons_self _ _) (by simp) [results.getD 0 0] (by simp)] at h1
    have h2 := monitorUpdate_lookup _ _ _ hs2 "loss" _ h1
    rw [appendedVals_nil_of_not_mem dic "loss" (List.mem_cons_self _ _)
      (by rw [hfst]; exact hlnm)] at h2
    simpa [nanmean_singleton] using h2
  · -- metric histories: untouched by the first call, appended by the second
    intro m hm
    obtain ⟨⟨hmh, hmhs⟩, -⟩ := htrk m hm
    have hmrec : m ∈ "loss" :: recognized := List.mem_cons_of_mem _ (hrec m hm)
    refine ⟨hmh, hmhs, ?_⟩
    have h1 := monitorUpdate_lookup _ _ _ hs1 m hmh hmhs
    rw [appendedVals_nil_of_not_mem _ m hmrec
      (by
        simp only [List.map_cons, List.map_nil, List.mem_singleton]
        exact fun hc => hlnm (hc ▸ hm))] at h1
    rw [List.append_nil] at h1
    have hmem2 := hmemd m hm
    have harith : 0 + names.indexOf m + 1 = names.indexOf m + 1 := by omega
    rw [harith] at hmem2
    have h2 := monitorUpdate_lookup _ _ _ hs2 m hmh h1
    rw [appendedVals_single dic m hmrec hdnd [results.getD (names.indexOf m + 1) 0]
      hmem2] at h2
    simpa [nanmean_singleton] using h2
  · intro k
    exact (hpres2 k).trans (hpres1 k)

theorem exists_some_of_none_iff {α : Type} {a b : Option α}
    (h : (a = none) ↔ (b = none)) (hb : ∃ x, b = some x) : ∃ x, a = some x := by
  obtain ⟨x, hx⟩ := hb
  cases ha : a with
  | none =>
    rw [h.mp ha] at hx
    exact absurd hx (by simp)
  | some y => exact ⟨y, rfl⟩

theorem train_epoch_shuffle_isSome {α β γ : Type} (batches : List (α × β))
    (step : α × β → ℚ × γ) (hne : batches ≠ []) :
    (train_epoch batches step true).isSome := by
  cases batches with
  | nil => exact absurd rfl hne
  | cons b rest => simp [train_epoch]

/-- One epoch of the fit loop: the four steps happen in order, the decay
check is fed the value that this epoch's evaluation appended for the chosen
metric, and the tracked histories survive. -/
theorem fit_step_spec (o : FitOracle) (lr_metric es_metric : String) (es_patience : ℤ)
    (st : TrainerState) (epoch : ℕ)
    (hnd : o.metricNames.Nodup) (hrec : ∀ m ∈ o.metricNames, m ∈ recognized)
    (hlr : lr_metric = "loss" ∨ lr_metric ∈ o.metricNames)
    (hes : es_metric = "loss" ∨ es_metric ∈ o.metricNames)
    (hlen : (o.evalResults epoch).length = o.metricNames.length + 1)
    (hbat : o.trainBatches epoch ≠ [])
    (hloss : ∃ h, storeLookup st.metrics.valid "loss" = some h)
    (htrk : ∀ m ∈ o.metricNames, (∃ h, storeLookup st.metrics.valid m = some h) ∧
      (∃ h', storeLookup st.metrics.valid (m ++ "_std") = some h')) :
    ∃ st' es, fit_step o lr_metric es_metric es_patience true st epoch =
      some ([FitEvent.trainEpochEv epoch, FitEvent.evaluateEv epoch,
        FitEvent.checkLrDecayEv epoch (chosenVal o lr_metric epoch),
        FitEvent.earlyStoppingEv epoch es], st', es) ∧
      (∃ h, storeLookup st'.metrics.valid "loss" = some h) ∧
      (∀ m ∈ o.metricNames, (∃ h, storeLookup st'.metrics.valid m = some h) ∧
        (∃ h', storeLookup st'.metrics.valid (m ++ "_std") = some h')) := by
  obtain ⟨tr, htr⟩ := Option.isSome_iff_exists.mp
    (train_epoch_shuffle_isSome (o.trainBatches epoch) (o.stepFn epoch) hbat)
  obtain ⟨tm', heval, ⟨hLh, hLs, hLs'⟩, hmet, hkeys⟩ :=
    evaluate_valid st.metrics o.metricNames (o.evalResults epoch) hnd hrec hlen hloss htrk
  have hmne : ∀ m ∈ o.metricNames, m ≠ "loss" :=
    fun m hm hc => loss_not_recognized (hc ▸ hrec m hm)
  -- the learning-rate metric history ends with this epoch's value
  have hlrh : ∃ hh, storeLookup tm'.valid lr_metric = some hh ∧
      hh.getLast? = some (chosenVal o lr_metric epoch) := by
    rcases hlr with rfl | hm
    · refine ⟨hLh ++ [(o.evalResults epoch).getD 0 0], hLs', ?_⟩
      rw [List.getLast?_concat]
      rw [chosenVal, if_pos rfl]
    · obtain ⟨hh, -, hh2⟩ := hmet lr_metric hm
      refine ⟨_, hh2, ?_⟩
      rw [List.getLast?_concat]
      rw [chosenVal, if_neg (hmne lr_metric hm)]
  -- the early-stopping metric history is non-empty
  have hesh : ∃ hh, storeLookup tm'.valid es_metric = some hh ∧ hh ≠ [] := by
    rcases hes with rfl | hm
    · exact ⟨_, hLs', by simp⟩
    · obtain ⟨hh, -, hh2⟩ := hmet es_metric hm
      exact ⟨_, hh2, by simp⟩
  obtain ⟨hh, hhs, hlast⟩ := hlrh
  obtain ⟨gg, hgs, hgne⟩ := hesh
  have hesb : early_stopping tm' es_metric es_patience =
      some (decide (es_patience - ((gg.length : ℤ) -
        ((if es_metric = "loss" then argminList gg else argmaxList gg) : ℕ) - 1) ≤ 0)) := by
    simp only [early_stopping, hgs]
    rw [if_neg (by simpa [List.isEmpty_iff] using hgne)]
  refine ⟨⟨tm', st.lr_decay.check (chosenVal o lr_metric epoch)⟩,
    decide (es_patience - ((gg.length : ℤ) -
      ((if es_metric = "loss" then argminList gg else argmaxList gg) : ℕ) - 1) ≤ 0),
    ?_, ⟨_, hLs'⟩, ?_⟩
  · unfold fit_step
    simp only [htr, heval, hhs, hlast, hesb, Option.bind_eq_bind, Option.some_bind]
  · intro m hm
    obtain ⟨hh1, -, hh2⟩ := hmet m hm
    refine ⟨⟨_, hh2⟩, ?_⟩
    exact exists_some_of_none_iff (hkeys (m ++ "_std")) (htrk m hm).2

/-- The fit loop runs complete epochs until the fuel runs out or the first
early stop, whichever comes first. -/
theorem fit_loop_spec (o : FitOracle) (lr_metric es_metric : String) (es_patience : ℤ)
    (hnd : o.metricNames.Nodup) (hrec : ∀ m ∈ o.metricNames, m ∈ recognized)
    (hlr : lr_metric = "loss" ∨ lr_metric ∈ o.metricNames)
    (hes : es_metric = "loss" ∨ es_metric ∈ o.metricNames)
    (hlen : ∀ e, (o.evalResults e).length = o.metricNames.length + 1)
    (hbat : ∀ e, o.trainBatches e ≠ []) :
    ∀ (fuel epoch0 : ℕ) (st : TrainerState),
    (∃ h, storeLookup st.metrics.valid "loss" = some h) →
    (∀ m ∈ o.metricNames, (∃ h, storeLookup st.metrics.valid m = some h) ∧
      (∃ h', storeLookup st.metrics.valid (m ++ "_std") = some h')) →
    ∃ (k : ℕ) (es : ℕ → Bool) (st' : TrainerState), k ≤ fuel ∧
      fit_loop o lr_metric es_metric es_patience true st epoch0 fuel =
        some ((List.range k).flatMap (fun j =>
          [FitEvent.trainEpochEv (epoch0 + j), FitEvent.evaluateEv (epoch0 + j),
           FitEvent.checkLrDecayEv (epoch0 + j) (chosenVal o lr_metric (epoch0 + j)),
           FitEvent.earlyStoppingEv (epoch0 + j) (es j)]), st') ∧
      (∀ j, j + 1 < k → es j = false) ∧
      (k < fuel → 0 < k ∧ es (k - 1) = true) := by
  intro fuel
  induction fuel with
  | zero =>
    intro epoch0 st hloss htrk
    exact ⟨0, fun _ => false, st, le_refl 0, by simp [fit_loop],
      fun j hj => absurd hj (by omega), fun hk => absurd hk (by omega)⟩
  | succ fuel ih =>
    intro epoch0 st hloss htrk
    obtain ⟨st1, es0, hstep, hloss1, htrk1⟩ :=
      fit_step_spec o lr_metric es_metric es_patience st epoch0 hnd hrec hlr hes
        (hlen epoch0) (hbat epoch0) hloss htrk
    cases hes0 : es0 with
    | true =>
      subst hes0
      refine ⟨1, fun _ => true, st1, by omega, ?_,
        fun j hj => absurd hj (by omega), fun _ => ⟨by omega, rfl⟩⟩
      rw [show fit_loop o lr_metric es_metric es_patience true st epoch0 (fuel + 1) =
        (fit_step o lr_metric es_metric es_patience true st epoch0).bind
          (fun r => if r.2.2 then some (r.1, r.2.1)
            else (fit_loop o lr_metric es_metric es_patience true r.2.1 (epoch0 + 1)
              fuel).bind (fun t => some (r.1 ++ t.1, t.2))) from rfl]
      rw [hstep]
      rw [show List.range 1 = [0] from rfl]
      simp
    | false =>
      subst hes0
      obtain ⟨k', es', st'', hk'le, hloop, hesf, hlastf⟩ := ih (epoch0 + 1) st1 hloss1 htrk1
      refine ⟨k' + 1, fun j => if j = 0 then false else es' (j - 1), st'', by omega,
        ?_, ?_, ?_⟩
      · rw [show fit_loop o lr_metric es_metric es_patience true st epoch0 (fuel + 1) =
          (fit_step o lr_metric es_metric es_patience true st epoch0).bind
            (fun r => if r.2.2 then some (r.1, r.2.1)
              else (fit_loop o lr_metric es_metric es_patience true r.2.1 (epoch0 + 1)
                fuel).bind (fun t => some (r.1 ++ t.1, t.2))) from rfl]
        rw [hstep]
        have hlist : (List.range (k' + 1)).flatMap (fun j =>
            [FitEvent.trainEpochEv (epoch0 + j), FitEvent.evaluateEv (epoch0 + j),
             FitEvent.checkLrDecayEv (epoch0 + j) (chosenVal o lr_metric (epoch0 + j)),
             FitEvent.earlyStoppingEv (epoch0 + j)
               (if j = 0 then false else es' (j - 1))]) =
          [FitEvent.trainEpochEv epoch0, FitEvent.evaluateEv epoch0,
           FitEvent.checkLrDecayEv epoch0 (chosenVal o lr_metric epoch0),
           FitEvent.earlyStoppingEv epoch0 false] ++
          (List.range k').flatMap (fun j =>
            [FitEvent.trainEpochEv (epoch0 + 1 + j), FitEvent.evaluateEv (epoch0 + 1 + j),
             FitEvent.checkLrDecayEv (epoch0 + 1 + j) (chosenVal o lr_metric (epoch0 + 1 + j)),
             FitEvent.earlyStoppingEv (epoch0 + 1 + j) (es' j)]) := by
          rw [List.range_succ_eq_map, List.flatMap_cons, List.flatMap_map]
          congr 1
          refine List.flatMap_congr ?_
          intro j hj
          have h1 : epoch0 + (j + 1) = epoch0 + 1 + j := by omega
          simp [h1]
        rw [hlist]
        simp only [Option.bind_eq_bind, Option.some_bind]
        rw [if_neg (by simp)]
        rw [hloop]
        simp only [Option.some_bind]
      · intro j hj
        cases j with
        | zero => simp
        | succ j =>
          have : es' j = false := hesf j (by omega)
          simp [this]
      · intro hk
        obtain ⟨hk0, hk1⟩ := hlastf (by omega)
        refine ⟨by omega, ?_⟩
        have hne0 : ¬ (k' + 1 - 1 = 0) := by omega
        show (if k' + 1 - 1 = 0 then false else es' (k' + 1 - 1 - 1)) = true
        rw [if_neg hne0]
        have harith : k' + 1 - 1 - 1 = k' - 1 := by omega
        rw [harith]
        exact hk1

/-- C8: `fit_lr_decay` runs complete epochs, each performing train_epoch,
then validation evaluate, then check_lr_decay fed with this epoch's fresh
validation value of the chosen learning-rate metric, then early_stopping,
in that order; it runs `num_epochs` epochs unless early stopping first
returns true, in which case the epoch whose early_stopping returned true is
the last one executed. -/
theorem fit_lr_decay_spec (o : FitOracle) (num_epochs : ℕ) (es_patience : ℤ)
    (es_metric lr_metric : String) (lr dr : ℚ) (lr_patience : ℕ)
    (hnd : o.metricNames.Nodup) (hrec : ∀ m ∈ o.metricNames, m ∈ recognized)
    (hlr : lr_metric = "loss" ∨ lr_metric ∈ o.metricNames)
    (hes : es_metric = "loss" ∨ es_metric ∈ o.metricNames)
    (hlen : ∀ e, (o.evalResults e).length = o.metricNames.length + 1)
    (hbat : ∀ e, o.trainBatches e ≠ []) :
    ∃ (k : ℕ) (es : ℕ → Bool) (st' : TrainerState), k ≤ num_epochs ∧
      fit_lr_decay o num_epochs true es_patience es_metric lr dr lr_patience lr_metric =
        some ((List.range k).flatMap (fun e =>
          [FitEvent.trainEpochEv e, FitEvent.evaluateEv e,
           FitEvent.checkLrDecayEv e (chosenVal o lr_metric e),
           FitEvent.earlyStoppingEv e (es e)]), st') ∧
      (∀ e, e + 1 < k → es e = false) ∧
      (k < num_epochs → 0 < k ∧ es (k - 1) = true) := by
  have hloss0 : ∃ h, storeLookup (TrainMetrics.make ("loss" :: o.metricNames)).valid
      "loss" = some h :=
    ⟨[], storeLookup_init_loss _⟩
  have htrk0 : ∀ m ∈ o.metricNames,
      (∃ h, storeLookup (TrainMetrics.make ("loss" :: o.metricNames)).valid m = some h) ∧
      (∃ h', storeLookup (TrainMetrics.make ("loss" :: o.metricNames)).valid
        (m ++ "_std") = some h') := by
    intro m hm
    obtain ⟨h1, h2⟩ := storeLookup_init_tracked ("loss" :: o.metricNames) m
      (hrec m hm) (List.mem_cons_of_mem _ hm)
    exact ⟨⟨[], h1⟩, ⟨[], h2⟩⟩
  obtain ⟨k, es, st', hk, hloop, h1, h2⟩ :=
    fit_loop_spec o lr_metric es_metric es_patience hnd hrec hlr hes hlen hbat
      num_epochs 0
      ⟨TrainMetrics.make ("loss" :: o.metricNames),
        LRDecay.make lr dr lr_patience lr_metric⟩ hloss0 htrk0
  refine ⟨k, es, st', hk, ?_, h1, h2⟩
  rw [show fit_lr_decay o num_epochs true es_patience es_metric lr dr lr_patience
      lr_metric =
    fit_loop o lr_metric es_metric es_patience true
      ⟨TrainMetrics.make ("loss" :: o.metricNames),
        LRDecay.make lr dr lr_patience lr_metric⟩ 0 num_epochs from rfl]
  rw [hloop]
  congr 1
  congr 1
  refine List.flatMap_congr ?_
  intro j hj
  simp

theorem lr_decay_const_seq_witness :
    (LRDecay.make 1 1 2 "loss").fires (List.replicate 5 0) = (5 - 1) / 2 ∧
    ((LRDecay.make 1 1 2 "loss").runChecks (List.replicate 5 0)).lr =
      1 * 1 ^ ((5 - 1) / 2) := by
  have hmk : LRDecay.make 1 1 2 "loss" = ⟨1, 1, 2, "loss", 0, 10000000000, 1⟩ := by
    unfold LRDecay.make
    rw [if_pos rfl]
  exact lr_decay_const_seq 1 1 2 5 "loss" 0 (by norm_num) (by norm_num)
    (by rw [hmk]; norm_num)

theorem early_stopping_spec_witness :
    early_stopping ⟨[], [("loss", ([] : List ℚ)),
      ("auroc", [1/2, 3/5, 11/20]), ("auroc_std", [])], []⟩ "auroc" 1 = some true ∧
    early_stopping ⟨[], [("loss", ([] : List ℚ)),
      ("auroc", [1/2, 3/5, 11/20]), ("auroc_std", [])], []⟩ "auroc" 2 = some false ∧
    early_stopping ⟨[], [("loss", [9/10, 4/5, 19/20, 1])], []⟩ "loss" 1 = some true := by
  have hidx : argmaxList [(1:ℚ)/2, 3/5, 11/20] = 1 := by
    norm_num [argmaxList, argmaxAux]
  have hidx2 : argminList [(9:ℚ)/10, 4/5, 19/20, 1] = 1 := by
    norm_num [argminList, argminAux]
  have h1 := early_stopping_spec ⟨[], [("loss", ([] : List ℚ)),
    ("auroc", [1/2, 3/5, 11/20]), ("auroc_std", [])], []⟩ "auroc" 1
    [1/2, 3/5, 11/20] rfl (by simp)
  have h2 := early_stopping_spec ⟨[], [("loss", ([] : List ℚ)),
    ("auroc", [1/2, 3/5, 11/20]), ("auroc_std", [])], []⟩ "auroc" 2
    [1/2, 3/5, 11/20] rfl (by simp)
  have h3 := early_stopping_spec ⟨[], [("loss", [9/10, 4/5, 19/20, 1])], []⟩ "loss" 1
    [9/10, 4/5, 19/20, 1] rfl (by simp)
  refine ⟨?_, ?_, ?_⟩
  · rw [h1.1, if_neg (show ¬ ("auroc" = "loss") by decide), hidx]
    norm_num
  · rw [h2.1, if_neg (show ¬ ("auroc" = "loss") by decide), hidx]
    norm_num
  · rw [h3.1, if_pos rfl, hidx2]
    norm_num

theorem lr_decay_init_spec_witness :
    (LRDecay.make 1 1 2 "auroc").best_val = -10000000000 ∧
    ((LRDecay.make 1 1 2 "auroc").status 5).2.best_val = 5 ∧
    ((LRDecay.make 1 1 2 "auroc").status 5).1 = false := by
  obtain ⟨-, h2⟩ := lr_decay_init_spec 1 1 2 "auroc" 5
  obtain ⟨hb, hs, himp⟩ := h2 (by decide)
  exact ⟨hb, (himp (by norm_num)).1, (himp (by norm_num)).2.2⟩

theorem monitor_histories_witness :
    (∀ m ∈ tracked ["auroc"],
      ∃ h, storeLookup [("loss", ([] : List ℚ)), ("auroc", [nanmean [2]]),
          ("auroc_std", [nanstd [2]])] m = some h ∧
        h.length = (([[("auroc", [(2 : ℚ)])]].filter
          (fun c => decide (m ∈ c.map Prod.fst))).length)) ∧
    (∀ m : String, (∃ h, storeLookup [("loss", ([] : List ℚ)),
        ("auroc", [nanmean [2]]), ("auroc_std", [nanstd [2]])] (m ++ "_std") = some h) ↔
      (m ∈ tracked ["auroc"] ∧ m ≠ "loss")) :=
  monitor_histories_track_update_counts ["auroc"] [[("auroc", [(2 : ℚ)])]]
    [("loss", ([] : List ℚ)), ("auroc", [nanmean [2]]), ("auroc_std", [nanstd [2]])]
    (by
      intro c hc
      rw [List.mem_singleton] at hc
      subst hc
      simp)
    rfl

theorem train_metrics_unknown_split_noop_witness :
    TrainMetrics.update (TrainMetrics.make ["auroc"]) "oops" [("loss", [(1 : ℚ)])] =
      some (TrainMetrics.make ["auroc"]) :=
  train_metrics_unknown_split_noop (TrainMetrics.make ["auroc"]) "oops"
    [("loss", [(1 : ℚ)])] (by decide) (by decide) (by decide)

theorem update_unknown_metric_fails_witness :
    monitorUpdate (init_metrics ["auroc"]) [("acc", [(1 : ℚ)])] = none :=
  update_unknown_metric_fails ["auroc"] [] (init_metrics ["auroc"])
    [("acc", [(1 : ℚ)])] "acc" rfl rfl (by simp)

theorem fit_lr_decay_spec_witness :
    ∃ (k : ℕ) (es : ℕ → Bool) (st' : TrainerState), k ≤ 1 ∧
      fit_lr_decay ⟨["auroc"], fun _ => [1, 0], fun _ => [([0], [0])],
          fun _ _ => (0, [0])⟩ 1 true 1 "auroc" 1 1 1 "auroc" =
        some ((List.range k).flatMap (fun e =>
          [FitEvent.trainEpochEv e, FitEvent.evaluateEv e,
           FitEvent.checkLrDecayEv e (chosenVal ⟨["auroc"], fun _ => [1, 0],
             fun _ => [([0], [0])], fun _ _ => (0, [0])⟩ "auroc" e),
           FitEvent.earlyStoppingEv e (es e)]), st') ∧
      (∀ e, e + 1 < k → es e = false) ∧
      (1 < 1 → 0 < k ∧ es (k - 1) = true) := by
  obtain ⟨k, es, st', hk, htrace, hfalse, hlast⟩ :=
    fit_lr_decay_spec ⟨["auroc"], fun _ => [1, 0], fun _ => [([0], [0])],
        fun _ _ => (0, [0])⟩ 1 1 "auroc" "auroc" 1 1 1
      (by simp)
      (by
        intro m hm
        rw [List.mem_singleton] at hm
        subst hm
        decide)
      (Or.inr (by simp))
      (Or.inr (by simp))
      (fun e => rfl)
      (fun e => by simp)
  exact ⟨k, es, st', hk, htrace, hfalse, fun hc => absurd hc (by omega)⟩

theorem progress_bar_spec_witness :
    ((2 = 2 →
      ∃ out, progress_bar 2 2 3 4 ⟨none, none, none, none, none, none, none⟩ =
          some out ∧
        strContains out (" -- elapsed time=" ++ fmtFixed 1 3 ++ "s") ∧
        ∃ t, out = t ++ "\n") ∧
     (2 < 2 →
      ∃ out, progress_bar 2 2 3 4 ⟨none, none, none, none, none, none, none⟩ =
          some out ∧
        strContains out ("  -- remaining time=" ++
          fmtFixed 1 (3 * (((2 : ℕ) : ℚ) - (((2 : ℕ) : ℚ) + 1)) / (((2 : ℕ) : ℚ) + 1)) ++
          "s") ∧
        '\n' ∉ out.data)) ∧
    ((1 = 2 →
      ∃ out, progress_bar 1 2 3 4 ⟨none, none, none, none, none, none, none⟩ =
          some out ∧
        strContains out (" -- elapsed time=" ++ fmtFixed 1 3 ++ "s") ∧
        ∃ t, out = t ++ "\n") ∧
     (1 < 2 →
      ∃ out, progress_bar 1 2 3 4 ⟨none, none, none, none, none, none, none⟩ =
          some out ∧
        strContains out ("  -- remaining time=" ++
          fmtFixed 1 (3 * (((2 : ℕ) : ℚ) - (((1 : ℕ) : ℚ) + 1)) / (((1 : ℕ) : ℚ) + 1)) ++
          "s") ∧
        '\n' ∉ out.data)) :=
  ⟨progress_bar_spec 2 2 3 4 ⟨none, none, none, none, none, none, none⟩ (by decide),
   progress_bar_spec 1 2 3 4 ⟨none, none, none, none, none, none, none⟩ (by decide)⟩

theorem init_unrecognized_name_witness :
    ((¬ ∃ m ∈ recognized, m ∈ ["auroc", "foo"] ∧ "foo" = m ++ "_std") →
      storeLookup (init_metrics ["auroc", "foo"]) "foo" = none) ∧
    monitorUpdate (init_metrics ["auroc", "foo"]) [("foo", [(1 : ℚ)])] = none :=
  init_unrecognized_name ["auroc", "foo"] "foo" [("foo", [(1 : ℚ)])]
    (by decide) (by simp) (by simp)

end Tfomics

